import Mathlib

/-!
# fan2go: the per-fan controller (`internal/controller.go`)

A shallow embedding of `calculateTargetPwm`, `ComputePwmBoundaries` and
`AttachFanCurveData`, together with the `float64` arithmetic they use.

Go `int` values are modelled as `Int`; every PWM value handled here lies in
`[0, 255]`, far away from the 64-bit limits.  A function that mutates the fan
returns the fan after the call next to its Go result.  Log output is not
modelled.

The file has two parts: the definitions (arithmetic, collaborators, the three
functions, fixtures), then the theorems.
-/

namespace Fan2go

/-! ## binary64 arithmetic

A finite IEEE-754 binary64 number is an integer multiple of `2^-1074` (the
smallest subnormal) whose significand has at most 53 bits.  `F64` stores that
integer multiple.  Every operation computes the exact rational result and
rounds it to the nearest such number, ties to even, exactly as the hardware
does.  NaN, the infinities and the sign of zero are not represented: overflow
is not modelled and a division by zero yields `0`.
-/

/-- A finite binary64 value, `units * 2^-1074`. -/
structure F64 where
  units : Int
deriving DecidableEq

namespace F64

/-- The number of units in `1.0`. -/
@[irreducible] def one : Nat := 2 ^ 1074

/-- Upward search for a `j` with `n < 2 ^ 2 ^ j`. -/
def log2Span (n : Nat) : Nat → Nat → Nat
  | 0, j => j
  | fuel + 1, j => if n < 2 ^ 2 ^ j then j else log2Span n fuel (j + 1)

/-- Binary search for the position of the leading bit of `n`, between `acc`
and `acc + 2 ^ i`. -/
def log2Search (n : Nat) : Nat → Nat → Nat
  | 0, acc => acc
  | i + 1, acc =>
    if 2 ^ (acc + 2 ^ i) ≤ n then log2Search n i (acc + 2 ^ i) else log2Search n i acc

/-- Position of the leading bit: `⌊log₂ n⌋` for `n ≥ 1`. -/
def ilog2 (n : Nat) : Nat := log2Search n (log2Span n n 0) 0

/-- Round the non-negative rational `p / q` (counted in units) to the nearest
value with a 53-bit significand, ties to even.  Below `2^53` units the spacing
is one unit (the subnormal range and the first binades). -/
def roundNat (p q : Nat) : Nat :=
  let e := ilog2 (p / q) - 52
  let step := q * 2 ^ e
  let m := p / step
  let r := p % step
  let m' :=
    if 2 * r < step then m
    else if step < 2 * r then m + 1
    else if m % 2 = 0 then m else m + 1
  m' * 2 ^ e

/-- Signed rounding of `p / q`. -/
def roundInt (p : Int) (q : Nat) : Int :=
  if p < 0 then -(roundNat p.natAbs q : Int) else (roundNat p.natAbs q : Int)

/-- Go `float64(n)` for an `int` n. -/
def ofInt (n : Int) : F64 := ⟨roundInt (n * (one : Int)) 1⟩

/-- Go `a + b`. -/
def add (a b : F64) : F64 := ⟨roundInt (a.units + b.units) 1⟩

/-- Go `a - b`. -/
def sub (a b : F64) : F64 := ⟨roundInt (a.units - b.units) 1⟩

/-- Go `a * b`. -/
def mul (a b : F64) : F64 := ⟨roundInt (a.units * b.units) one⟩

/-- Go `a / b` (for `b ≠ 0`). -/
def div (a b : F64) : F64 :=
  ⟨roundInt (a.units * (one : Int) * b.units.sign) b.units.natAbs⟩

/-- Go `int(a)`: truncation toward zero. -/
def toInt (a : F64) : Int := Int.tdiv a.units (one : Int)

/-- Go `a <= b`. -/
def le (a b : F64) : Bool := decide (a.units ≤ b.units)

/-- Go `a < b`. -/
def lt (a b : F64) : Bool := decide (a.units < b.units)

/-- The zero value of a Go `float64` variable. -/
def zero : F64 := ⟨0⟩

/-- The rational number a value stands for. -/
def toRat (a : F64) : ℚ := (a.units : ℚ) / (one : ℚ)

end F64


/-! ## Collaborators declared outside `controller.go` -/

/-- Modelled from the spec: the constant `MaxPwmValue` is declared in another
package; §4.7 clamps to `[MinPwmValue, MaxPwmValue]` = `(0, 255)`. -/
def MaxPwmValue : Int := 255

/-- Modelled from the spec: the constant `MinPwmValue`, §4.7. -/
def MinPwmValue : Int := 0

/-- Go `error` values returned by the controller. -/
inductive GoError where
  | ErrInvalid
  | DeviceIO (code : Nat)
deriving DecidableEq

/-- A Go map with `int` keys: an association list holding one entry per key. -/
abbrev IntMap (α : Type) := List (Int × α)

namespace IntMap

/-- Go `v, ok := m[k]`. -/
def get {α : Type} (m : IntMap α) (k : Int) : Option α := List.lookup k m

/-- Go `m[k] = v`. -/
def set {α : Type} (m : IntMap α) (k : Int) (v : α) : IntMap α :=
  (k, v) :: m.filter (fun e => e.1 != k)

/-- The key set, in storage order. -/
def keys {α : Type} (m : IntMap α) : List Int := m.map Prod.fst

end IntMap

/-- Modelled from the spec: `util.Avg` is declared in another package; the
averaging primitive of §2 is the arithmetic mean, a running `float64` sum
divided by the number of samples. -/
def Avg (xs : List F64) : F64 :=
  F64.div (xs.foldl F64.add F64.zero) (F64.ofInt xs.length)

/-- Modelled from the spec: `util.Ratio` is declared in another package; the
ratio primitive of §2 and §4.5 is the position of `target` between `rangeMin`
and `rangeMax`. -/
def Ratio (target rangeMin rangeMax : F64) : F64 :=
  F64.div (F64.sub target rangeMin) (F64.sub rangeMax rangeMin)

/-- Modelled from the spec: the rolling window behind `createRollingWindow`,
`Append` and `getWindowAvg` is declared in another package.  §4.1: fixed capacity,
`append` evicts the oldest sample once full, reductions range over the valid
samples (oldest first in `samples`). -/
structure RollingWindow where
  capacity : Nat
  samples : List F64
deriving DecidableEq

/-- Modelled from the spec: `createRollingWindow(size)`, an empty window of
capacity `size` (§4.1). -/
def createRollingWindow (size : Nat) : RollingWindow := ⟨size, []⟩

/-- Modelled from the spec: `window.Append(value)` (§4.1). -/
def RollingWindow.Append (w : RollingWindow) (value : F64) : RollingWindow :=
  if w.samples.length < w.capacity then { w with samples := w.samples ++ [value] }
  else { w with samples := (w.samples ++ [value]).drop 1 }

/-- Modelled from the spec: `getWindowAvg(window)`, the `avg()` reduction of
§4.1. -/
def getWindowAvg (w : RollingWindow) : F64 := Avg w.samples

/-- The part of `configuration.FanConfig` read by the controller. -/
structure FanConfig where
  ID : String
  NeverStop : Bool
  Curve : String
deriving DecidableEq

/-- Modelled from the spec: the `Fan` interface is declared in another package.
§3 lists the attributes; every getter and setter used by the controller reads
or writes the attribute of the same name.  `FanCurveData` is the allocated map
behind `GetFanCurveData()`. -/
structure Fan where
  Config : FanConfig
  StartPwm : Int
  MinPwm : Int
  MaxPwm : Int
  OriginalPwmEnabled : Int
  FanCurveData : IntMap RollingWindow
  LastSetPwm : Int
  RpmAvg : F64
deriving DecidableEq

/-! ## `calculateTargetPwm` -/

/-- The range mapping inside `calculateTargetPwm`:
`int((float64(target)/MaxPwmValue)*(float64(maxPwm)-float64(minPwm)))`. -/
def scaleToRange (target minPwm maxPwm : Int) : Int :=
  F64.toInt (F64.mul (F64.div (F64.ofInt target) (F64.ofInt MaxPwmValue))
    (F64.sub (F64.ofInt maxPwm) (F64.ofInt minPwm)))

/-- The target after clamping and range mapping, before never-stop enforcement. -/
def mappedTarget (fan : Fan) (pwm : Int) : Int :=
  let target := pwm
  let target :=
    if target > MaxPwmValue then MaxPwmValue
    else if target < MinPwmValue then MinPwmValue
    else target
  let maxPwm := fan.MaxPwm
  let minPwm := fan.MinPwm
  minPwm + scaleToRange target minPwm maxPwm

/-- `calculateTargetPwm(fan, currentPwm, pwm)`: the fan after the call and the
returned target.  The two warnings (out-of-bounds value, third-party change of
the PWM) only log; the argument `currentPwm` is read by nothing else.  Go `int` is
`Int` here: in a fan state with `0 ≤ MinPwm ≤ MaxPwm ≤ 255` every integer the function
computes lies in `[-1, 256]`, far from the 64-bit wrap, and the theorems about it assume
that state. -/
def calculateTargetPwm (fan : Fan) (_currentPwm : Int) (pwm : Int) : Fan × Int :=
  let maxPwm := fan.MaxPwm
  let target := mappedTarget fan pwm
  let lastSetPwm := fan.LastSetPwm
  if fan.Config.NeverStop && lastSetPwm == target then
    let avgRpm := fan.RpmAvg
    if F64.le avgRpm (F64.ofInt 0) then
      if target ≥ maxPwm then
        (fan, -1)
      else
        ({ fan with MinPwm := fan.MinPwm + 1, RpmAvg := F64.ofInt 1 }, target + 1)
    else (fan, target)
  else (fan, target)

/-- The target as §4.7 step 2 words it, with rounding to the nearest integer:
`min_pwm + round((optimal / 255) · (max_pwm − min_pwm))`. -/
def specRoundedTarget (minPwm maxPwm optimal : Int) : Int :=
  minPwm + round (((optimal : ℚ) / 255) * ((maxPwm : ℚ) - (minPwm : ℚ)))

/-- The fan of `TestCalculateTargetSpeedNeverStop` (`MinPWM = 10`, never-stop) in the
state the spec's scenario describes: no RPM, `last_set_pwm` equal to the target. -/
def stalledFan : Fan :=
  { Config := { ID := "fan", NeverStop := true, Curve := "curve" }
    StartPwm := 10, MinPwm := 10, MaxPwm := 255, OriginalPwmEnabled := 0
    FanCurveData := [], LastSetPwm := 10, RpmAvg := F64.ofInt 0 }

/-- A never-stop fan that was last set to its `max_pwm` and still reports no RPM. -/
def deadFan : Fan :=
  { Config := { ID := "fan", NeverStop := true, Curve := "curve" }
    StartPwm := 10, MinPwm := 10, MaxPwm := 255, OriginalPwmEnabled := 0
    FanCurveData := [], LastSetPwm := 255, RpmAvg := F64.ofInt 0 }

/-- A fan without never-stop whose measured range is `[0, 100]`. -/
def rangeFan : Fan :=
  { Config := { ID := "fan", NeverStop := false, Curve := "curve" }
    StartPwm := 0, MinPwm := 0, MaxPwm := 100, OriginalPwmEnabled := 0
    FanCurveData := [], LastSetPwm := 0, RpmAvg := F64.ofInt 0 }

/-! ## `ComputePwmBoundaries` -/

/-- The window-averaged RPM of one key: `getWindowAvg((*pwmRpmMap)[pwm])`. -/
def windowAvgAt (pwmRpmMap : IntMap RollingWindow) (pwm : Int) : F64 :=
  getWindowAvg ((pwmRpmMap.get pwm).getD (createRollingWindow 0))

/-- The integer RPM the boundary search compares: `int(getWindowAvg(window))`. -/
def avgRpmAt (pwmRpmMap : IntMap RollingWindow) (pwm : Int) : Int :=
  F64.toInt (windowAvgAt pwmRpmMap pwm)

/-- One iteration of the loop over the sorted keys; the state is
`(startPwm, maxPwm, maxRpm)`. -/
def boundaryStep (pwmRpmMap : IntMap RollingWindow) (st : Int × Int × Int) (pwm : Int) :
    Int × Int × Int :=
  let avgRpm := avgRpmAt pwmRpmMap pwm
  let maxRpm := if avgRpm > st.2.2 then avgRpm else st.2.2
  let maxPwm := if avgRpm > st.2.2 then pwm else st.2.1
  let startPwm := if avgRpm > 0 ∧ pwm < st.1 then pwm else st.1
  (startPwm, maxPwm, maxRpm)

/-- `ComputePwmBoundaries(fan)`, returning `(startPwm, maxPwm)`. -/
def ComputePwmBoundaries (fan : Fan) : Int × Int :=
  let pwmRpmMap := fan.FanCurveData
  let keys := pwmRpmMap.keys
  if keys.length ≤ 0 then
    (0, 255)
  else
    let keys := keys.insertionSort (· ≤ ·)
    let st := keys.foldl (boundaryStep pwmRpmMap) (255, 255, 0)
    (st.1, st.2.1)

/-! ## `AttachFanCurveData` -/

/-- The four loop-carried variables of `AttachFanCurveData` and the fan's map. -/
structure AttachState where
  lastValueIdx : Int
  lastValueAvg : F64
  nextValueIdx : Int
  nextValueAvg : F64
  data : IntMap RollingWindow
deriving DecidableEq

/-- Go `copy(dst, src)`: the contents of `dst` afterwards. -/
def copySlice (dst src : List F64) : List F64 :=
  src.take dst.length ++ dst.drop src.length

/-- The inner loop `for j := i; j <= limit; j++`: every recorded key from `i`
on overwrites `nextValueIdx` and `nextValueAvg`. -/
def findNextValue (curveData : IntMap (List F64)) (i : Nat) (nextValueAvg : F64) :
    Int × F64 :=
  (List.range' i (256 - i)).foldl
    (fun (st : Int × F64) (j : Nat) =>
      match curveData.get j with
      | some pointValues => ((j : Int), Avg pointValues)
      | none => st)
    ((i : Int), nextValueAvg)

/-- The loop `for k := 0; k < RpmRollingWindowSize; k++` that fills a fresh
window; the state is `(currentAvg, fanCurveMovingWindow)`. -/
def fillStep (pointValues : List F64) (st : F64 × RollingWindow) (k : Nat) :
    F64 × RollingWindow :=
  let rpm := if k < pointValues.length then pointValues.getD k F64.zero else st.1
  let currentAvg := if k = 0 then rpm else F64.div (F64.add st.1 rpm) (F64.ofInt 2)
  (currentAvg, st.2.Append rpm)

/-- The window built for one key from `pointValues`. -/
def fillRollingWindow (size : Nat) (pointValues : List F64) : RollingWindow :=
  ((List.range size).foldl (fillStep pointValues) (F64.zero, createRollingWindow size)).2

/-- The samples the window of key `i` is filled from, with the updated
loop-carried variables.  A nil slice is the empty list; the value stored under
`pointValues == nil` is replaced on both later paths. -/
def pointValuesAt (curveData : IntMap (List F64)) (st : AttachState) (i : Nat) :
    AttachState × List F64 :=
  let pointValues := (curveData.get i).getD []
  let containsKey := (curveData.get i).isSome
  if containsKey && pointValues.length > 0 then
    ({ st with lastValueIdx := i, lastValueAvg := Avg pointValues }, pointValues)
  else
    let pointValues := if pointValues.isEmpty then [st.lastValueAvg] else pointValues
    let next := findNextValue curveData i st.nextValueAvg
    let st := { st with nextValueIdx := next.1, nextValueAvg := next.2 }
    if st.nextValueIdx == (i : Int) then
      let valuesCopy : List F64 := []
      let _ := copySlice pointValues valuesCopy
      (st, valuesCopy)
    else
      let ratio := Ratio (F64.ofInt i) (F64.ofInt st.lastValueIdx) (F64.ofInt st.nextValueIdx)
      let interpolation :=
        F64.add st.lastValueAvg (F64.mul ratio (F64.sub st.nextValueAvg st.lastValueAvg))
      (st, [interpolation])

/-- One iteration of `for i := 0; i <= limit; i++`. -/
def attachStep (curveData : IntMap (List F64)) (size : Nat) (st : AttachState) (i : Nat) :
    AttachState :=
  let r := pointValuesAt curveData st i
  { r.1 with data := r.1.data.set i (fillRollingWindow size r.2) }

/-- `AttachFanCurveData(curveData, fan)`: the fan after the call and the
returned error.  `curveData = none` is the nil pointer, `size` is
`configuration.CurrentConfig.RpmRollingWindowSize`. -/
def AttachFanCurveData (curveData : Option (IntMap (List F64))) (size : Nat) (fan : Fan) :
    Fan × Option GoError :=
  match curveData with
  | none => (fan, some GoError.ErrInvalid)
  | some curveData =>
    if curveData.length ≤ 0 then
      (fan, some GoError.ErrInvalid)
    else
      let st := (List.range 256).foldl (attachStep curveData size)
        { lastValueIdx := 0, lastValueAvg := F64.zero, nextValueIdx := 0,
          nextValueAvg := F64.zero, data := fan.FanCurveData }
      let fan := { fan with FanCurveData := st.data }
      let bounds := ComputePwmBoundaries fan
      ({ fan with StartPwm := bounds.1, MaxPwm := bounds.2, MinPwm := bounds.1 }, none)

/-- The seed §4.5 documents for a key `i` without samples, between the last recorded key
`l` and the next recorded key `j`: `lastAvg + (i - l) / (j - l) * (nextAvg - lastAvg)`. -/
def specInterpolation (l j i : Int) (lastAvg nextAvg : F64) : F64 :=
  F64.add lastAvg
    (F64.mul (Ratio (F64.ofInt i) (F64.ofInt l) (F64.ofInt j)) (F64.sub nextAvg lastAvg))

/-! ## Fixtures of `controller_test.go` -/

/-- The `NeverStoppingFan` data set. -/
def NeverStoppingFan : IntMap (List F64) :=
  [(0, [F64.ofInt 50]), (50, [F64.ofInt 50]), (255, [F64.ofInt 255])]

/-- The `CappedFan` data set. -/
def CappedFan : IntMap (List F64) :=
  [(0, [F64.ofInt 0]), (1, [F64.ofInt 0]), (2, [F64.ofInt 0]), (3, [F64.ofInt 0]),
    (4, [F64.ofInt 0]), (5, [F64.ofInt 0]), (6, [F64.ofInt 20]), (200, [F64.ofInt 200])]

/-- The fan built by `CreateFan` before the curve data is attached. -/
def emptyFan (neverStop : Bool) : Fan :=
  { Config := { ID := "fan1", NeverStop := neverStop, Curve := "curve" }
    StartPwm := 0, MinPwm := 0, MaxPwm := 0, OriginalPwmEnabled := 0
    FanCurveData := [], LastSetPwm := 0, RpmAvg := F64.zero }

/-- A fan whose learned map holds the window averages `100.25` at PWM 10 and `100.75` at
PWM 20. -/
def fractionalFan : Fan :=
  { emptyFan false with
    FanCurveData :=
      [(10, ⟨1, [F64.div (F64.ofInt 401) (F64.ofInt 4)]⟩),
        (20, ⟨1, [F64.div (F64.ofInt 403) (F64.ofInt 4)]⟩)] }

/-- A fan whose learned map holds the window averages `0.5` at PWM 3 and `2` at PWM 7. -/
def slowStartFan : Fan :=
  { emptyFan false with
    FanCurveData :=
      [(3, ⟨1, [F64.div (F64.ofInt 1) (F64.ofInt 2)]⟩), (7, ⟨1, [F64.ofInt 2]⟩)] }

/-- A fan whose learned map holds the window average `0` at PWM 0, 128 and 255. -/
def stoppedFan : Fan :=
  { emptyFan false with
    FanCurveData :=
      [(0, ⟨1, [F64.ofInt 0]⟩), (128, ⟨1, [F64.ofInt 0]⟩), (255, ⟨1, [F64.ofInt 0]⟩)] }

/-- The fan of `TestCalculateTargetSpeedNeverStop`: never-stop, `MinPWM = 10`, `RPM = 100`,
`PWM = 0` (which the mock also reports as the last set PWM), `GetMaxPwm() = 255`. -/
def spinningFan : Fan :=
  { Config := { ID := "fan", NeverStop := true, Curve := "curve" }
    StartPwm := 0, MinPwm := 10, MaxPwm := 255, OriginalPwmEnabled := 0
    FanCurveData := [], LastSetPwm := 0, RpmAvg := F64.ofInt 100 }

/-! ## The control loop: `UpdateFanSpeed` and the recovery step of `Run` -/

/-- A write the controller sends to the fan. -/
inductive DeviceCall where
  | SetPwm (value : Int)
  | SetPwmEnabled (value : Int)
deriving DecidableEq

/-- Modelled from the spec: the device side of the `Fan` interface (`GetPwm`, `SetPwm`,
`SetPwmEnabled`) is declared in another package.  §2: the fan abstraction offers
read/write of PWM and enable/disable of manual PWM control; §7: a write of a device file
can fail.  `pwm` is what `GetPwm` reads, `fault` decides the outcome of a write from the
writes made before it, `calls` records every write in order. -/
structure Device where
  fan : Fan
  pwm : Int
  pwmEnabled : Int
  fault : List DeviceCall → DeviceCall → Option GoError
  calls : List DeviceCall

namespace Device

/-- Modelled from the spec: `fan.GetPwm()`. -/
def GetPwm (d : Device) : Int := d.pwm

/-- Modelled from the spec: `fan.SetPwm(pwm)`; a successful write is what `GetPwm` and
`GetLastSetPwm` return afterwards. -/
def SetPwm (d : Device) (pwm : Int) : Device × Option GoError :=
  match d.fault d.calls (DeviceCall.SetPwm pwm) with
  | some err => ({ d with calls := d.calls ++ [DeviceCall.SetPwm pwm] }, some err)
  | none =>
    ({ d with
        pwm := pwm, fan := { d.fan with LastSetPwm := pwm }
        calls := d.calls ++ [DeviceCall.SetPwm pwm] }, none)

/-- Modelled from the spec: `fan.SetPwmEnabled(value)`. -/
def SetPwmEnabled (d : Device) (value : Int) : Device × Option GoError :=
  match d.fault d.calls (DeviceCall.SetPwmEnabled value) with
  | some err => ({ d with calls := d.calls ++ [DeviceCall.SetPwmEnabled value] }, some err)
  | none =>
    ({ d with pwmEnabled := value, calls := d.calls ++ [DeviceCall.SetPwmEnabled value] },
      none)

end Device

/-- `setPwm(fan, target)`. -/
def setPwm (d : Device) (target : Int) : Device × Option GoError :=
  let current := d.GetPwm
  if target == current then (d, none) else d.SetPwm target

/-- `trySetManualPwm(fan)`. -/
def trySetManualPwm (d : Device) : Device × Option GoError :=
  let r := d.SetPwmEnabled 1
  match r.2 with
  | some _ => r.1.SetPwmEnabled 0
  | none => r

/-- `fanController.UpdateFanSpeed()`.  `optimal` is the result of
`f.calculateOptimalPwm(fan)`, the evaluation of the fan's speed curve. -/
def UpdateFanSpeed (d : Device) (optimal : Except GoError Int) : Device × Option GoError :=
  let current := d.GetPwm
  match optimal with
  | Except.error err => (d, some err)
  | Except.ok optimalPwm =>
    let r := calculateTargetPwm d.fan current optimalPwm
    let d := { d with fan := r.1 }
    let target := r.2
    let w := setPwm d target
    match w.2 with
    | some _ =>
      let m := trySetManualPwm w.1
      match m.2 with
      | some err => (m.1, some err)
      | none => (m.1, none)
    | none => (w.1, none)

/-- The recovery step of `fanController.Run`, entered when `UpdateFanSpeed` returned the
error `err`: the body of `if err != nil` inside the loop. -/
def runRecovery (d : Device) (err : GoError) : Device × Option GoError :=
  if d.fan.OriginalPwmEnabled != 1 then
    let r := d.SetPwmEnabled d.fan.OriginalPwmEnabled
    match r.2 with
    | none => (r.1, some err)
    | some _ =>
      let w := setPwm r.1 MaxPwmValue
      (w.1, some err)
  else
    let w := setPwm d MaxPwmValue
    (w.1, some err)

/-- The dead fan behind a device on which every write succeeds; the fan runs at PWM 255. -/
def deadDevice : Device :=
  { fan := deadFan, pwm := 255, pwmEnabled := 1, fault := fun _ _ => none, calls := [] }

/-- A device on which every PWM write fails with `DeviceIO 5` while `SetPwmEnabled`
succeeds. -/
def stuckPwmDevice : Device :=
  { fan := rangeFan, pwm := 0, pwmEnabled := 1
    fault := fun _ c =>
      match c with
      | DeviceCall.SetPwm _ => some (GoError.DeviceIO 5)
      | DeviceCall.SetPwmEnabled _ => none
    calls := [] }

/-- A device on which every write fails with `DeviceIO 7`; the fan was on automatic
control (`pwm_enable = 2`) before the controller took over. -/
def brokenDevice : Device :=
  { fan := { rangeFan with OriginalPwmEnabled := 2 }, pwm := 40, pwmEnabled := 1
    fault := fun _ _ => some (GoError.DeviceIO 7), calls := [] }

/-! ## Exhaustive check of the range mapping -/

namespace F64

/-- The twelve `(target, maxPwm - minPwm)` pairs at which the rounded product
falls just below an integer. -/
def scaleExceptions : List (Int × Int) :=
  [(147, 85), (147, 170), (155, 51), (155, 102), (155, 153), (155, 204), (171, 85),
    (171, 170), (187, 75), (187, 150), (187, 165), (195, 153)]

/-- The units of `(t / 255) * d` computed on natural numbers. -/
def scaleUnits (t d : Nat) : Nat :=
  roundNat (roundNat (t * one * one) (255 * one) * (d * one)) one

/-- One case of the check. -/
def scaleCase (t d : Nat) : Bool :=
  Nat.beq (scaleUnits t d / one)
    (t * d / 255 - (if ((t : Int), (d : Int)) ∈ scaleExceptions then 1 else 0))

/-- The cases `(t, 0), …, (t, n - 1)` in which `255` divides `t * d`. -/
def scaleRow (t : Nat) : Nat → Bool
  | 0 => true
  | d + 1 => (if t * d % 255 = 0 then scaleCase t d else true) && scaleRow t d

/-- The rows `0, …, n - 1`. -/
def scaleRows : Nat → Bool
  | 0 => true
  | t + 1 => scaleRow t 256 && scaleRows t

end F64

/-! ## Representable values -/

namespace F64

/-- A count of units is representable: its significand fits in 53 bits. -/
def Rep (n : Nat) : Prop := 2 ^ (ilog2 n - 52) ∣ n

end F64

/-- A data set with RPM values beyond `2^53`: `2^60 - 128` at PWM 0 and `2^60` at PWM 2. -/
def hugeRpmData : IntMap (List F64) :=
  [(0, [F64.ofInt (2 ^ 60 - 128)]), (2, [F64.ofInt (2 ^ 60)])]

/-- The integer RPM that `CappedFan` records under key `k` (`0` where nothing is
recorded). -/
def cappedRpm (k : Int) : Int := if k = 200 then 200 else if k = 6 then 20 else 0

/-! ### Facts about the rounding -/


namespace F64

theorem one_eq : one = 2 ^ 1074 := by
  unfold one
  rfl

theorem one_pos : 0 < one := by
  rw [one_eq]
  positivity

theorem two_pow_dvd_one (e : Nat) (h : e ≤ 1074) : 2 ^ e ∣ one := by
  obtain ⟨k, hk⟩ := Nat.exists_eq_add_of_le h
  rw [one_eq, hk, pow_add]
  exact Dvd.intro _ rfl

theorem two_pow_70_le_one : 2 ^ 70 ≤ one := by
  rw [one_eq, show (1074 : Nat) = 70 + 1004 from rfl, pow_add]
  exact Nat.le_mul_of_pos_right _ (by positivity)

theorem log2Span_spec (n : Nat) :
    ∀ fuel j : Nat, n < 2 ^ 2 ^ (j + fuel) → n < 2 ^ 2 ^ log2Span n fuel j := by
  intro fuel
  induction fuel with
  | zero =>
    intro j h
    simpa [log2Span] using h
  | succ k ih =>
    intro j h
    unfold log2Span
    split
    · assumption
    · apply ih
      have : j + 1 + k = j + (k + 1) := by omega
      rw [this]
      exact h

theorem log2Search_spec (n : Nat) :
    ∀ i acc : Nat, 2 ^ acc ≤ n → n < 2 ^ (acc + 2 ^ i) →
      2 ^ log2Search n i acc ≤ n ∧ n < 2 ^ (log2Search n i acc + 1) := by
  intro i
  induction i with
  | zero =>
    intro acc h1 h2
    simpa [log2Search] using And.intro h1 h2
  | succ k ih =>
    intro acc h1 h2
    unfold log2Search
    split
    · rename_i hle
      apply ih _ hle
      have : acc + 2 ^ k + 2 ^ k = acc + 2 ^ (k + 1) := by
        rw [pow_succ]
        omega
      rw [this]
      exact h2
    · rename_i hnle
      exact ih _ h1 (Nat.lt_of_not_le hnle)

theorem ilog2_spec (n : Nat) (hn : 0 < n) :
    2 ^ ilog2 n ≤ n ∧ n < 2 ^ (ilog2 n + 1) := by
  unfold ilog2
  apply log2Search_spec
  · simpa using hn
  · rw [Nat.zero_add]
    apply log2Span_spec
    rw [Nat.zero_add]
    calc n < 2 ^ n := Nat.lt_two_pow n
      _ ≤ 2 ^ 2 ^ n := Nat.pow_le_pow_right (by norm_num) (Nat.lt_two_pow n).le

theorem ilog2_lt_of_lt_pow (n k : Nat) (h : n < 2 ^ k) (hn : 0 < n) : ilog2 n < k := by
  have h1 := (ilog2_spec n hn).1
  have h2 : 2 ^ ilog2 n < 2 ^ k := lt_of_le_of_lt h1 h
  exact (Nat.pow_lt_pow_iff_right (by norm_num)).1 h2

theorem le_ilog2_of_pow_le (n k : Nat) (h : 2 ^ k ≤ n) : k ≤ ilog2 n := by
  have hn : 0 < n := lt_of_lt_of_le (by positivity) h
  have h1 := (ilog2_spec n hn).2
  have h2 : 2 ^ k < 2 ^ (ilog2 n + 1) := lt_of_le_of_lt h h1
  have := (Nat.pow_lt_pow_iff_right (by norm_num)).1 h2
  omega

/-- The definition of `roundNat` with its local names expanded. -/
theorem roundNat_eq (p q : Nat) :
    roundNat p q =
      (if 2 * (p % (q * 2 ^ (ilog2 (p / q) - 52))) < q * 2 ^ (ilog2 (p / q) - 52) then
          p / (q * 2 ^ (ilog2 (p / q) - 52))
        else if q * 2 ^ (ilog2 (p / q) - 52) < 2 * (p % (q * 2 ^ (ilog2 (p / q) - 52))) then
          p / (q * 2 ^ (ilog2 (p / q) - 52)) + 1
        else if p / (q * 2 ^ (ilog2 (p / q) - 52)) % 2 = 0 then
          p / (q * 2 ^ (ilog2 (p / q) - 52))
        else p / (q * 2 ^ (ilog2 (p / q) - 52)) + 1) * 2 ^ (ilog2 (p / q) - 52) := rfl

/-- In the normal range the relative rounding error is at most `2^-53`. -/
theorem roundNat_err (p q : Nat) (hq : 0 < q) (h : 2 ^ 52 * q ≤ p) :
    2 ^ 53 * (roundNat p q * q) ≤ (2 ^ 53 + 1) * p ∧
      (2 ^ 53 - 1) * p ≤ 2 ^ 53 * (roundNat p q * q) := by
  have hf : 2 ^ 52 ≤ p / q := (Nat.le_div_iff_mul_le hq).2 h
  have hL : 52 ≤ ilog2 (p / q) := le_ilog2_of_pow_le _ _ hf
  have hspec := (ilog2_spec (p / q) (lt_of_lt_of_le (by norm_num) hf)).1
  rw [roundNat_eq]
  generalize he : ilog2 (p / q) - 52 = e at *
  have hLe : ilog2 (p / q) = 52 + e := by omega
  rw [hLe, pow_add] at hspec
  have hstep : 0 < q * 2 ^ e := by positivity
  generalize hS : q * 2 ^ e = S at *
  have hqf : q * (p / q) ≤ p := Nat.mul_div_le p q
  have h52 : 2 ^ 52 * S ≤ p := by
    calc 2 ^ 52 * S = q * (2 ^ 52 * 2 ^ e) := by rw [← hS]; ring
      _ ≤ q * (p / q) := Nat.mul_le_mul_left q hspec
      _ ≤ p := hqf
  have hm : 2 ^ 52 ≤ p / S := (Nat.le_div_iff_mul_le hstep).2 h52
  have hdm : S * (p / S) + p % S = p := Nat.div_add_mod p S
  have hr : p % S < S := Nat.mod_lt p hstep
  generalize hM : p / S = m at *
  generalize hR : p % S = r at *
  have hmS : 2 ^ 52 * S ≤ S * m := by
    calc 2 ^ 52 * S = S * 2 ^ 52 := by ring
      _ ≤ S * m := Nat.mul_le_mul_left S hm
  have e1 : m * 2 ^ e * q = S * m := by rw [← hS]; ring
  have e2 : (m + 1) * 2 ^ e * q = S * m + S := by rw [← hS]; ring
  generalize hSm : S * m = M at *
  split_ifs <;> simp only [e1, e2] <;> norm_num at * <;> omega

/-- A value that is a multiple of the rounding quantum is not changed. -/
theorem roundNat_exact (p q : Nat) (h : q * 2 ^ (ilog2 (p / q) - 52) ∣ p) (hq : 0 < q) :
    roundNat p q * q = p := by
  rw [roundNat_eq]
  have hmod : p % (q * 2 ^ (ilog2 (p / q) - 52)) = 0 := Nat.mod_eq_zero_of_dvd h
  have hstep : 0 < q * 2 ^ (ilog2 (p / q) - 52) := by positivity
  rw [hmod]
  simp only [Nat.mul_zero, hstep, if_true]
  calc p / (q * 2 ^ (ilog2 (p / q) - 52)) * 2 ^ (ilog2 (p / q) - 52) * q
      = q * 2 ^ (ilog2 (p / q) - 52) * (p / (q * 2 ^ (ilog2 (p / q) - 52))) := by ring
    _ = p := Nat.mul_div_cancel' h

end F64

/-! ### The range mapping of `calculateTargetPwm` -/

namespace F64

theorem roundInt_natCast (p q : Nat) : roundInt (p : Int) q = (roundNat p q : Int) := by
  unfold roundInt
  have h : ¬ ((p : Int) < 0) := by omega
  simp [h]

/-- Integers below `2^53` convert without rounding. -/
theorem ofInt_natCast (n : Nat) (h : n < 2 ^ 53) : ofInt (n : Int) = ⟨((n * one : Nat) : Int)⟩ := by
  unfold ofInt
  have hc : (n : Int) * (one : Int) = ((n * one : Nat) : Int) := by push_cast; rfl
  rw [hc, roundInt_natCast]
  have hex : roundNat (n * one) 1 * 1 = n * one := by
    apply roundNat_exact _ _ _ (by norm_num)
    rw [Nat.div_one, Nat.one_mul]
    rcases Nat.eq_zero_or_pos n with h0 | h0
    · simp [h0]
    · have hlt : n * one < 2 ^ (53 + 1074) := by
        rw [pow_add, ← one_eq]
        exact Nat.mul_lt_mul_of_pos_right h one_pos
      have hl := ilog2_lt_of_lt_pow _ _ hlt (Nat.mul_pos h0 one_pos)
      have he : ilog2 (n * one) - 52 ≤ 1074 := by omega
      exact Dvd.dvd.mul_left (two_pow_dvd_one _ he) n
  rw [Nat.mul_one] at hex
  rw [hex]

theorem scaleToRange_eq_scaleUnits (t mn mx : Nat) (ht : t < 256) (hmx : mx < 256)
    (hle : mn ≤ mx) :
    scaleToRange (t : Int) (mn : Int) (mx : Int) = ((scaleUnits t (mx - mn) / one : Nat) : Int) := by
  have h53 : (256 : Nat) ≤ 2 ^ 53 := by norm_num
  unfold scaleToRange MaxPwmValue
  rw [ofInt_natCast t (by omega), ofInt_natCast mx (by omega), ofInt_natCast mn (by omega),
    show (255 : Int) = ((255 : Nat) : Int) from rfl, ofInt_natCast 255 (by norm_num)]
  have hpos : (0 : Int) < ((255 * one : Nat) : Int) := by
    have := one_pos
    omega
  have hsub : sub ⟨((mx * one : Nat) : Int)⟩ ⟨((mn * one : Nat) : Int)⟩
      = ⟨(((mx - mn) * one : Nat) : Int)⟩ := by
    have h := ofInt_natCast (mx - mn) (by omega)
    unfold ofInt at h
    unfold sub
    have hc : ((mx * one : Nat) : Int) - ((mn * one : Nat) : Int)
        = ((mx - mn : Nat) : Int) * (one : Int) := by
      push_cast [Nat.cast_sub hle]
      ring
    simp only [hc]
    exact h
  rw [hsub]
  unfold div mul toInt scaleUnits
  simp only [Int.sign_eq_one_of_pos hpos, Int.natAbs_ofNat, mul_one]
  rw [show ((t * one : Nat) : Int) * (one : Int) = ((t * one * one : Nat) : Int) by push_cast; rfl,
    roundInt_natCast,
    show ((roundNat (t * one * one) (255 * one) : Nat) : Int) * (((mx - mn) * one : Nat) : Int)
      = ((roundNat (t * one * one) (255 * one) * ((mx - mn) * one) : Nat) : Int) by push_cast; rfl,
    roundInt_natCast, ← Int.ofNat_tdiv]

theorem scale_nonmultiple (t d : Nat) (ht : t < 256) (hd : d < 256) (h : t * d % 255 ≠ 0) :
    scaleUnits t d / one = t * d / 255 := by
  unfold scaleUnits
  have h70 := two_pow_70_le_one
  have ho := one_pos
  have ht1 : 1 ≤ t := by
    rcases Nat.eq_zero_or_pos t with h0 | h0
    · simp [h0] at h
    · exact h0
  have hd1 : 1 ≤ d := by
    rcases Nat.eq_zero_or_pos d with h0 | h0
    · simp [h0] at h
    · exact h0
  have hT1 : one ≤ t * one := Nat.le_mul_of_pos_left one ht1
  have hT2 : t * one ≤ 255 * one := Nat.mul_le_mul_right one (by omega)
  have pre1 : 2 ^ 52 * (255 * one) ≤ t * one * one := by
    calc 2 ^ 52 * (255 * one) = (2 ^ 52 * 255) * one := by ring
      _ ≤ one * one := Nat.mul_le_mul_right one (le_trans (show 2 ^ 52 * 255 ≤ 2 ^ 70 by norm_num) h70)
      _ ≤ t * one * one := Nat.mul_le_mul_right one hT1
  obtain ⟨hQ1, hQ2⟩ := roundNat_err (t * one * one) (255 * one) (by positivity) pre1
  generalize roundNat (t * one * one) (255 * one) = Q at *
  have hQ1' : 2 ^ 53 * 255 * Q ≤ (2 ^ 53 + 1) * (t * one) := by
    apply Nat.le_of_mul_le_mul_right _ ho
    calc 2 ^ 53 * 255 * Q * one = 2 ^ 53 * (Q * (255 * one)) := by ring
      _ ≤ (2 ^ 53 + 1) * (t * one * one) := hQ1
      _ = (2 ^ 53 + 1) * (t * one) * one := by ring
  have hQ2' : (2 ^ 53 - 1) * (t * one) ≤ 2 ^ 53 * 255 * Q := by
    apply Nat.le_of_mul_le_mul_right _ ho
    calc (2 ^ 53 - 1) * (t * one) * one = (2 ^ 53 - 1) * (t * one * one) := by ring
      _ ≤ 2 ^ 53 * (Q * (255 * one)) := hQ2
      _ = 2 ^ 53 * 255 * Q * one := by ring
  have hQ52 : 2 ^ 52 ≤ Q := by
    generalize t * one = T at *
    norm_num at *
    omega
  have pre2 : 2 ^ 52 * one ≤ Q * (d * one) := by
    calc 2 ^ 52 * one ≤ Q * one := Nat.mul_le_mul_right one hQ52
      _ ≤ Q * (d * one) := Nat.mul_le_mul_left Q (Nat.le_mul_of_pos_left one hd1)
  obtain ⟨hR1, hR2⟩ := roundNat_err (Q * (d * one)) one ho pre2
  generalize roundNat (Q * (d * one)) one = R at *
  have hR1' : 2 ^ 53 * R ≤ (2 ^ 53 + 1) * (Q * d) := by
    apply Nat.le_of_mul_le_mul_right _ ho
    calc 2 ^ 53 * R * one = 2 ^ 53 * (R * one) := by ring
      _ ≤ (2 ^ 53 + 1) * (Q * (d * one)) := hR1
      _ = (2 ^ 53 + 1) * (Q * d) * one := by ring
  have hR2' : (2 ^ 53 - 1) * (Q * d) ≤ 2 ^ 53 * R := by
    apply Nat.le_of_mul_le_mul_right _ ho
    calc (2 ^ 53 - 1) * (Q * d) * one = (2 ^ 53 - 1) * (Q * (d * one)) := by ring
      _ ≤ 2 ^ 53 * (R * one) := hR2
      _ = 2 ^ 53 * R * one := by ring
  have hX1 : 2 ^ 53 * 255 * (Q * d) ≤ (2 ^ 53 + 1) * (t * d * one) := by
    calc 2 ^ 53 * 255 * (Q * d) = 2 ^ 53 * 255 * Q * d := by ring
      _ ≤ (2 ^ 53 + 1) * (t * one) * d := Nat.mul_le_mul_right d hQ1'
      _ = (2 ^ 53 + 1) * (t * d * one) := by ring
  have hX2 : (2 ^ 53 - 1) * (t * d * one) ≤ 2 ^ 53 * 255 * (Q * d) := by
    calc (2 ^ 53 - 1) * (t * d * one) = (2 ^ 53 - 1) * (t * one) * d := by ring
      _ ≤ 2 ^ 53 * 255 * Q * d := Nat.mul_le_mul_right d hQ2'
      _ = 2 ^ 53 * 255 * (Q * d) := by ring
  have hdm : 255 * (t * d / 255) + t * d % 255 = t * d := Nat.div_add_mod _ _
  have hs : t * d % 255 < 255 := Nat.mod_lt _ (by norm_num)
  have htd : t * d ≤ 255 * 255 := Nat.mul_le_mul (by omega) (by omega)
  generalize hK : t * d / 255 = K at *
  generalize hS : t * d % 255 = s at *
  have hK254 : K ≤ 254 := by omega
  have hY : t * d * one = 255 * (K * one) + s * one := by rw [← hdm]; ring
  have hW1 : one ≤ s * one := Nat.le_mul_of_pos_left one (by omega)
  have hW2 : s * one ≤ 254 * one := Nat.mul_le_mul_right one (by omega)
  have hZ : K * one ≤ 254 * one := Nat.mul_le_mul_right one hK254
  apply Nat.div_eq_of_lt_le
  · generalize Q * d = X at *
    generalize t * d * one = Y at *
    generalize K * one = Z at *
    generalize s * one = W at *
    norm_num at *
    omega
  · have : (K + 1) * one = K * one + one := by ring
    rw [this]
    generalize Q * d = X at *
    generalize t * d * one = Y at *
    generalize K * one = Z at *
    generalize s * one = W at *
    norm_num at *
    omega

theorem scaleRow_sound (t : Nat) :
    ∀ n : Nat, scaleRow t n = true → ∀ d : Nat, d < n → t * d % 255 = 0 → scaleCase t d = true := by
  intro n
  induction n with
  | zero =>
    intro _ d hd
    omega
  | succ k ih =>
    intro h d hd hm
    simp only [scaleRow, Bool.and_eq_true] at h
    rcases Nat.lt_succ_iff_lt_or_eq.1 hd with hlt | heq
    · exact ih h.2 d hlt hm
    · subst heq
      simpa [hm] using h.1

theorem scaleRows_sound :
    ∀ n : Nat, scaleRows n = true →
      ∀ t : Nat, t < n → ∀ d : Nat, d < 256 → t * d % 255 = 0 → scaleCase t d = true := by
  intro n
  induction n with
  | zero =>
    intro _ t ht
    omega
  | succ k ih =>
    intro h t ht d hd hm
    simp only [scaleRows, Bool.and_eq_true] at h
    rcases Nat.lt_succ_iff_lt_or_eq.1 ht with hlt | heq
    · exact ih h.2 t hlt d hd hm
    · subst heq
      exact scaleRow_sound _ 256 h.1 d hd hm

/-- Every case in which `255` divides `t * d`, evaluated. -/
theorem scaleRows_all : scaleRows 256 = true := by
  decide!

/-- The truncated product is the exact quotient, less one at the twelve exceptions. -/
theorem scaleUnits_div (t d : Nat) (ht : t < 256) (hd : d < 256) :
    scaleUnits t d / one
      = t * d / 255 - (if ((t : Int), (d : Int)) ∈ scaleExceptions then 1 else 0) := by
  by_cases hm : t * d % 255 = 0
  · have h := scaleRows_sound 256 scaleRows_all t ht d hd hm
    unfold scaleCase at h
    exact Nat.eq_of_beq_eq_true h
  · rw [scale_nonmultiple t d ht hd hm]
    have hne : ¬ (((t : Int), (d : Int)) ∈ scaleExceptions) := by
      intro hmem
      simp only [scaleExceptions, List.mem_cons, Prod.mk.injEq, List.mem_singleton,
        List.not_mem_nil, or_false] at hmem
      apply hm
      rcases hmem with h | h | h | h | h | h | h | h | h | h | h | h <;>
        · obtain ⟨h1, h2⟩ := h
          norm_cast at h1 h2
          subst h1
          subst h2
          rfl
    simp [hne]

end F64

/-- The range mapping on the whole domain: `⌊target * range / 255⌋`, less one at
the twelve exceptions. -/
theorem scaleToRange_eq (t mn mx : Int) (ht0 : 0 ≤ t) (ht : t ≤ 255) (hmn : 0 ≤ mn)
    (hle : mn ≤ mx) (hmx : mx ≤ 255) :
    scaleToRange t mn mx
      = t * (mx - mn) / 255 - (if (t, mx - mn) ∈ F64.scaleExceptions then 1 else 0) := by
  have hmx0 : 0 ≤ mx := le_trans hmn hle
  lift t to Nat using ht0
  lift mn to Nat using hmn
  lift mx to Nat using hmx0
  have hle' : mn ≤ mx := by exact_mod_cast hle
  rw [F64.scaleToRange_eq_scaleUnits t mn mx (by omega) (by omega) hle',
    F64.scaleUnits_div t (mx - mn) (by omega) (by omega)]
  have hc : ((mx : Int) - (mn : Int)) = ((mx - mn : Nat) : Int) := by
    rw [Nat.cast_sub hle']
  rw [hc]
  have hK : ∀ x : Nat, ((x / 255 : Nat) : Int) = (x : Int) / 255 := fun x => by norm_cast
  split_ifs with h
  · have hge : 1 ≤ t * (mx - mn) / 255 := by
      simp only [F64.scaleExceptions, List.mem_cons, Prod.mk.injEq, List.mem_singleton,
        List.not_mem_nil, or_false] at h
      rcases h with h | h | h | h | h | h | h | h | h | h | h | h <;>
        · obtain ⟨h1, h2⟩ := h
          norm_cast at h1 h2
          rw [h1, h2]
          norm_num
    rw [Nat.cast_sub hge, hK]
    push_cast
    rfl
  · rw [Nat.sub_zero, hK]
    push_cast
    ring

/-! ### `calculateTargetPwm` -/

theorem F64.ofInt_zero : F64.ofInt 0 = ⟨0⟩ := by
  have h := F64.ofInt_natCast 0 (by norm_num)
  simpa using h

theorem F64.le_ofInt_zero (a : F64) : F64.le a (F64.ofInt 0) = true ↔ a.units ≤ 0 := by
  rw [F64.ofInt_zero]
  simp [F64.le]

/-- The clamped input lies in `[MinPwmValue, MaxPwmValue]`. -/
theorem clamp_bounds (pwm : Int) :
    0 ≤ (if pwm > MaxPwmValue then MaxPwmValue else if pwm < MinPwmValue then MinPwmValue
      else pwm) ∧
    (if pwm > MaxPwmValue then MaxPwmValue else if pwm < MinPwmValue then MinPwmValue
      else pwm) ≤ 255 := by
  unfold MaxPwmValue MinPwmValue
  split_ifs <;> omega

theorem scaleToRange_nonneg (t mn mx : Int) (ht0 : 0 ≤ t) (ht : t ≤ 255) (hmn : 0 ≤ mn)
    (hle : mn ≤ mx) (hmx : mx ≤ 255) : 0 ≤ scaleToRange t mn mx := by
  have hmx0 : 0 ≤ mx := le_trans hmn hle
  lift t to Nat using ht0
  lift mn to Nat using hmn
  lift mx to Nat using hmx0
  rw [F64.scaleToRange_eq_scaleUnits t mn mx (by omega) (by omega) (by exact_mod_cast hle)]
  exact Int.natCast_nonneg _

theorem scaleToRange_le (t mn mx : Int) (ht0 : 0 ≤ t) (ht : t ≤ 255) (hmn : 0 ≤ mn)
    (hle : mn ≤ mx) (hmx : mx ≤ 255) : scaleToRange t mn mx ≤ mx - mn := by
  rw [scaleToRange_eq t mn mx ht0 ht hmn hle hmx]
  have hd : 0 ≤ mx - mn := by omega
  have hprod : t * (mx - mn) ≤ 255 * (mx - mn) := mul_le_mul_of_nonneg_right ht hd
  have hq : t * (mx - mn) / 255 ≤ mx - mn := by
    generalize t * (mx - mn) = x at *
    omega
  split_ifs <;> omega

/-- The mapped target stays inside the fan's range. -/
theorem mappedTarget_bounds (fan : Fan) (pwm : Int) (h0 : 0 ≤ fan.MinPwm)
    (h1 : fan.MinPwm ≤ fan.MaxPwm) (h2 : fan.MaxPwm ≤ 255) :
    fan.MinPwm ≤ mappedTarget fan pwm ∧ mappedTarget fan pwm ≤ fan.MaxPwm := by
  unfold mappedTarget
  obtain ⟨hc0, hc1⟩ := clamp_bounds pwm
  have hlo := scaleToRange_nonneg _ fan.MinPwm fan.MaxPwm hc0 hc1 h0 h1 h2
  have hhi := scaleToRange_le _ fan.MinPwm fan.MaxPwm hc0 hc1 h0 h1 h2
  constructor
  · simp only
    omega
  · simp only
    omega

/-- The three outcomes of `calculateTargetPwm`. -/
theorem calculateTargetPwm_eq (fan : Fan) (currentPwm pwm : Int) :
    calculateTargetPwm fan currentPwm pwm =
      if fan.Config.NeverStop = true ∧ fan.LastSetPwm = mappedTarget fan pwm ∧
          fan.RpmAvg.units ≤ 0 then
        if fan.MaxPwm ≤ mappedTarget fan pwm then (fan, -1)
        else ({ fan with MinPwm := fan.MinPwm + 1, RpmAvg := F64.ofInt 1 },
          mappedTarget fan pwm + 1)
      else (fan, mappedTarget fan pwm) := by
  unfold calculateTargetPwm
  by_cases hn : fan.Config.NeverStop = true
  · by_cases hl : fan.LastSetPwm = mappedTarget fan pwm
    · by_cases hr : fan.RpmAvg.units ≤ 0
      · have hr' := (F64.le_ofInt_zero fan.RpmAvg).2 hr
        by_cases hm : fan.MaxPwm ≤ mappedTarget fan pwm
        · simp [hn, hl, hr, hr', hm]
        · simp [hn, hl, hr, hr', hm]
      · have hr' : ¬ (F64.le fan.RpmAvg (F64.ofInt 0) = true) :=
          fun h => hr ((F64.le_ofInt_zero fan.RpmAvg).1 h)
        simp [hn, hl, hr, hr']
    · simp [hn, hl]
  · simp [hn]

/-- C1: for a fan with `0 ≤ min_pwm ≤ max_pwm ≤ 255`, any integer optimal value and any
current PWM, `calculateTargetPwm` returns the sentinel `-1` or a target between the fan's
`min_pwm` (before and after the call) and its `max_pwm`. -/
theorem C1_target_within_range (fan : Fan) (currentPwm optimal : Int)
    (h0 : 0 ≤ fan.MinPwm) (h1 : fan.MinPwm ≤ fan.MaxPwm) (h2 : fan.MaxPwm ≤ 255) :
    (calculateTargetPwm fan currentPwm optimal).2 = -1 ∨
      (fan.MinPwm ≤ (calculateTargetPwm fan currentPwm optimal).2 ∧
        (calculateTargetPwm fan currentPwm optimal).2 ≤ fan.MaxPwm ∧
        (calculateTargetPwm fan currentPwm optimal).1.MinPwm
          ≤ (calculateTargetPwm fan currentPwm optimal).2 ∧
        (calculateTargetPwm fan currentPwm optimal).2
          ≤ (calculateTargetPwm fan currentPwm optimal).1.MaxPwm) := by
  obtain ⟨hlo, hhi⟩ := mappedTarget_bounds fan optimal h0 h1 h2
  rw [calculateTargetPwm_eq]
  split_ifs with hc hm
  · left
    rfl
  · right
    simp only
    omega
  · right
    simp only
    omega

/-- Witness for C1: the stalled never-stop fan of the spec's scenario. -/
theorem C1_target_within_range_witness :
    (calculateTargetPwm stalledFan 10 0).2 = -1 ∨
      (stalledFan.MinPwm ≤ (calculateTargetPwm stalledFan 10 0).2 ∧
        (calculateTargetPwm stalledFan 10 0).2 ≤ stalledFan.MaxPwm ∧
        (calculateTargetPwm stalledFan 10 0).1.MinPwm ≤ (calculateTargetPwm stalledFan 10 0).2 ∧
        (calculateTargetPwm stalledFan 10 0).2 ≤ (calculateTargetPwm stalledFan 10 0).1.MaxPwm) :=
  C1_target_within_range stalledFan 10 0 (by decide) (by decide) (by decide)

/-- C2: for a fan with `0 ≤ min_pwm ≤ max_pwm ≤ 255`, `calculateTargetPwm` returns `-1`
exactly when the fan is never-stop, `last_set_pwm` equals the range-mapped target,
`rpm_avg ≤ 0` and the range-mapped target is at least `max_pwm`. -/
theorem C2_sentinel_iff (fan : Fan) (currentPwm optimal : Int)
    (h0 : 0 ≤ fan.MinPwm) (h1 : fan.MinPwm ≤ fan.MaxPwm) (h2 : fan.MaxPwm ≤ 255) :
    (calculateTargetPwm fan currentPwm optimal).2 = -1 ↔
      (fan.Config.NeverStop = true ∧ fan.LastSetPwm = mappedTarget fan optimal ∧
        fan.RpmAvg.units ≤ 0 ∧ fan.MaxPwm ≤ mappedTarget fan optimal) := by
  obtain ⟨hlo, hhi⟩ := mappedTarget_bounds fan optimal h0 h1 h2
  rw [calculateTargetPwm_eq]
  split_ifs with hc hm
  · simp only [true_iff]
    exact ⟨hc.1, hc.2.1, hc.2.2, hm⟩
  · simp only
    constructor
    · intro h
      omega
    · intro h
      exact absurd h.2.2.2 hm
  · simp only
    constructor
    · intro h
      omega
    · intro h
      exact absurd ⟨h.1, h.2.1, h.2.2.1⟩ hc

/-- Witness for C2: the dead fan asked for full speed gets the sentinel. -/
theorem C2_sentinel_iff_witness : (calculateTargetPwm deadFan 255 255).2 = -1 :=
  (C2_sentinel_iff deadFan 255 255 (by decide) (by decide) (by decide)).2
    ⟨rfl, by decide!, by decide!, by decide!⟩

/-- C3: for a never-stop fan in a valid state (`0 ≤ min_pwm ≤ max_pwm ≤ 255`) with
`rpm_avg ≤ 0` whose `last_set_pwm` equals the range-mapped target `T`, with `T < max_pwm`,
`calculateTargetPwm` returns `T + 1`, raises `min_pwm` by one and sets `rpm_avg` to `1`;
the returned target is positive and both new values stay at or below `max_pwm`, so no
machine integer wraps. -/
theorem C3_never_stop_increment (fan : Fan) (currentPwm optimal : Int)
    (hn : fan.Config.NeverStop = true) (hr : fan.RpmAvg.units ≤ 0)
    (hl : fan.LastSetPwm = mappedTarget fan optimal)
    (hm : mappedTarget fan optimal < fan.MaxPwm)
    (h0 : 0 ≤ fan.MinPwm) (h1 : fan.MinPwm ≤ fan.MaxPwm) (h2 : fan.MaxPwm ≤ 255) :
    (calculateTargetPwm fan currentPwm optimal).2 = mappedTarget fan optimal + 1 ∧
      (calculateTargetPwm fan currentPwm optimal).1.MinPwm = fan.MinPwm + 1 ∧
      (calculateTargetPwm fan currentPwm optimal).1.RpmAvg = F64.ofInt 1 ∧
      0 < (calculateTargetPwm fan currentPwm optimal).2 ∧
      (calculateTargetPwm fan currentPwm optimal).2 ≤ fan.MaxPwm ∧
      (calculateTargetPwm fan currentPwm optimal).1.MinPwm ≤ fan.MaxPwm ∧
      fan.MaxPwm ≤ 255 := by
  have hm' : ¬ fan.MaxPwm ≤ mappedTarget fan optimal := by omega
  obtain ⟨hb0, _⟩ := mappedTarget_bounds fan optimal h0 h1 h2
  rw [calculateTargetPwm_eq, if_pos ⟨hn, hl, hr⟩, if_neg hm']
  refine ⟨rfl, rfl, rfl, ?_, ?_, ?_, h2⟩
  · show 0 < mappedTarget fan optimal + 1
    omega
  · show mappedTarget fan optimal + 1 ≤ fan.MaxPwm
    omega
  · show fan.MinPwm + 1 ≤ fan.MaxPwm
    omega

/-- Witness for C3, the spec's scenario: `min_pwm = 10`, `optimal = 0`,
`last_set_pwm = 10`, `rpm_avg = 0` gives target `11` and `min_pwm = 11`. -/
theorem C3_never_stop_increment_witness :
    (calculateTargetPwm stalledFan 10 0).2 = 11 ∧
      (calculateTargetPwm stalledFan 10 0).1.MinPwm = 11 ∧
      (calculateTargetPwm stalledFan 10 0).1.RpmAvg = F64.ofInt 1 ∧
      0 < (calculateTargetPwm stalledFan 10 0).2 ∧
      (calculateTargetPwm stalledFan 10 0).2 ≤ stalledFan.MaxPwm ∧
      (calculateTargetPwm stalledFan 10 0).1.MinPwm ≤ stalledFan.MaxPwm ∧
      stalledFan.MaxPwm ≤ 255 := by
  have h := C3_never_stop_increment stalledFan 10 0 rfl (by decide!) (by decide!) (by decide!)
    (by decide) (by decide) (by decide)
  have hT : mappedTarget stalledFan 0 = 10 := by decide!
  rw [hT] at h
  exact h

/-- C7, as stated, fails: with `min_pwm = 0`, `max_pwm = 100` and `optimal = 127` the
code returns `49`, while rounding `127 · 100 / 255 = 49.8…` to the nearest integer gives
`50`. -/
theorem C7_counterexample :
    rangeFan.Config.NeverStop = false ∧
      (calculateTargetPwm rangeFan 0 127).2 = 49 ∧
      specRoundedTarget rangeFan.MinPwm rangeFan.MaxPwm 127 = 50 := by
  refine ⟨rfl, by decide!, ?_⟩
  unfold specRoundedTarget
  have hr : round (((127 : Int) : ℚ) / 255 * (((rangeFan.MaxPwm : Int) : ℚ) - ((rangeFan.MinPwm : Int) : ℚ)))
      = 50 := by
    rw [round_eq, Int.floor_eq_iff]
    simp only [rangeFan]
    norm_num
  rw [hr]
  rfl

/-- C7, amended: when never-stop enforcement does not trigger and `optimal` lies in
`[0, 255]`, the result is `min_pwm` plus the float64 product `(optimal / 255) · (max_pwm −
min_pwm)` truncated toward zero: `⌊optimal · (max_pwm − min_pwm) / 255⌋`, less one at
the twelve pairs where the rounded product falls just below an integer. -/
theorem C7_truncated_range_mapping (fan : Fan) (currentPwm optimal : Int)
    (h0 : 0 ≤ fan.MinPwm) (h1 : fan.MinPwm ≤ fan.MaxPwm) (h2 : fan.MaxPwm ≤ 255)
    (ho0 : 0 ≤ optimal) (ho : optimal ≤ 255)
    (hns : ¬ (fan.Config.NeverStop = true ∧ fan.LastSetPwm = mappedTarget fan optimal ∧
      fan.RpmAvg.units ≤ 0)) :
    (calculateTargetPwm fan currentPwm optimal).2 =
      fan.MinPwm + (optimal * (fan.MaxPwm - fan.MinPwm) / 255 -
        (if (optimal, fan.MaxPwm - fan.MinPwm) ∈ F64.scaleExceptions then 1 else 0)) := by
  rw [calculateTargetPwm_eq, if_neg hns]
  unfold mappedTarget MaxPwmValue MinPwmValue
  have hc1 : ¬ optimal > 255 := by omega
  have hc2 : ¬ optimal < 0 := by omega
  simp only [hc1, hc2, if_false]
  rw [scaleToRange_eq optimal fan.MinPwm fan.MaxPwm ho0 ho h0 h1 h2]

/-- Witness for C7 (amended), at one of the twelve exceptions: range `[0, 85]` and
`optimal = 147` give `48`, one less than `⌊147 · 85 / 255⌋ = 49`. -/
theorem C7_truncated_range_mapping_witness :
    (calculateTargetPwm { rangeFan with MaxPwm := 85 } 0 147).2 = 48 := by
  have h := C7_truncated_range_mapping { rangeFan with MaxPwm := 85 } 0 147
    (by decide) (by decide) (by decide) (by decide) (by decide)
    (fun hc => absurd hc.1 (by decide))
  rw [h]
  decide

/-! ### `ComputePwmBoundaries` -/

/-- The maximum search: either no key beats the initial `maxRpm`, or `maxPwm` is the first
key carrying the largest integer RPM. -/
theorem foldl_boundaryStep_max (m : IntMap RollingWindow) :
    ∀ l : List Int, l.Pairwise (· ≤ ·) → ∀ s mx r : Int,
      ((l.foldl (boundaryStep m) (s, mx, r)).2.2 = r ∧
          (l.foldl (boundaryStep m) (s, mx, r)).2.1 = mx ∧ ∀ k ∈ l, avgRpmAt m k ≤ r) ∨
        (r < (l.foldl (boundaryStep m) (s, mx, r)).2.2 ∧
          (l.foldl (boundaryStep m) (s, mx, r)).2.1 ∈ l ∧
          avgRpmAt m (l.foldl (boundaryStep m) (s, mx, r)).2.1
            = (l.foldl (boundaryStep m) (s, mx, r)).2.2 ∧
          (∀ k ∈ l, avgRpmAt m k ≤ (l.foldl (boundaryStep m) (s, mx, r)).2.2) ∧
          ∀ k ∈ l, avgRpmAt m k = (l.foldl (boundaryStep m) (s, mx, r)).2.2 →
            (l.foldl (boundaryStep m) (s, mx, r)).2.1 ≤ k) := by
  intro l
  induction l with
  | nil =>
    intro _ s mx r
    left
    simp
  | cons k t ih =>
    intro hp s mx r
    rw [List.pairwise_cons] at hp
    obtain ⟨hk, ht⟩ := hp
    rw [List.foldl_cons]
    by_cases hgt : avgRpmAt m k > r
    · have hstep : boundaryStep m (s, mx, r) k
          = ((if avgRpmAt m k > 0 ∧ k < s then k else s), k, avgRpmAt m k) := by
        simp [boundaryStep, hgt]
      rw [hstep]
      rcases ih ht (if avgRpmAt m k > 0 ∧ k < s then k else s) k (avgRpmAt m k) with h | h
      · right
        obtain ⟨h1, h2, h3⟩ := h
        rw [h1, h2]
        refine ⟨hgt, List.mem_cons_self _ _, rfl, ?_, ?_⟩
        · intro k' hk'
          rcases List.mem_cons.1 hk' with he | hm
          · rw [he]
          · exact h3 k' hm
        · intro k' hk' _
          rcases List.mem_cons.1 hk' with he | hm
          · rw [he]
          · exact hk k' hm
      · right
        obtain ⟨h1, h2, h3, h4, h5⟩ := h
        refine ⟨lt_trans hgt h1, List.mem_cons_of_mem _ h2, h3, ?_, ?_⟩
        · intro k' hk'
          rcases List.mem_cons.1 hk' with he | hm
          · rw [he]
            exact le_of_lt h1
          · exact h4 k' hm
        · intro k' hk' heq
          rcases List.mem_cons.1 hk' with he | hm
          · rw [he] at heq
            omega
          · exact h5 k' hm heq
    · have hstep : boundaryStep m (s, mx, r) k
          = ((if avgRpmAt m k > 0 ∧ k < s then k else s), mx, r) := by
        simp [boundaryStep, hgt]
      rw [hstep]
      rcases ih ht (if avgRpmAt m k > 0 ∧ k < s then k else s) mx r with h | h
      · left
        obtain ⟨h1, h2, h3⟩ := h
        refine ⟨h1, h2, ?_⟩
        intro k' hk'
        rcases List.mem_cons.1 hk' with he | hm
        · rw [he]
          omega
        · exact h3 k' hm
      · right
        obtain ⟨h1, h2, h3, h4, h5⟩ := h
        refine ⟨h1, List.mem_cons_of_mem _ h2, h3, ?_, ?_⟩
        · intro k' hk'
          rcases List.mem_cons.1 hk' with he | hm
          · rw [he]
            omega
          · exact h4 k' hm
        · intro k' hk' heq
          rcases List.mem_cons.1 hk' with he | hm
          · rw [he] at heq
            omega
          · exact h5 k' hm heq

/-- The start search: `startPwm` ends as the least of its initial value and the keys with a
positive integer RPM. -/
theorem foldl_boundaryStep_start (m : IntMap RollingWindow) :
    ∀ (l : List Int) (s mx r : Int),
      (l.foldl (boundaryStep m) (s, mx, r)).1 ≤ s ∧
        ((l.foldl (boundaryStep m) (s, mx, r)).1 = s ∨
          ((l.foldl (boundaryStep m) (s, mx, r)).1 ∈ l ∧
            0 < avgRpmAt m (l.foldl (boundaryStep m) (s, mx, r)).1)) ∧
        ∀ k ∈ l, 0 < avgRpmAt m k → (l.foldl (boundaryStep m) (s, mx, r)).1 ≤ k := by
  intro l
  induction l with
  | nil =>
    intro s mx r
    simp
  | cons k t ih =>
    intro s mx r
    rw [List.foldl_cons]
    have hstep : boundaryStep m (s, mx, r) k
        = ((if avgRpmAt m k > 0 ∧ k < s then k else s),
            (if avgRpmAt m k > r then k else mx),
            (if avgRpmAt m k > r then avgRpmAt m k else r)) := by
      simp [boundaryStep]
    rw [hstep]
    obtain ⟨h1, h2, h3⟩ := ih (if avgRpmAt m k > 0 ∧ k < s then k else s)
      (if avgRpmAt m k > r then k else mx) (if avgRpmAt m k > r then avgRpmAt m k else r)
    generalize (t.foldl (boundaryStep m) ((if avgRpmAt m k > 0 ∧ k < s then k else s),
      (if avgRpmAt m k > r then k else mx),
      (if avgRpmAt m k > r then avgRpmAt m k else r))).1 = res at *
    refine ⟨?_, ?_, ?_⟩
    · split_ifs at h1 <;> omega
    · rcases h2 with h | h
      · by_cases hc : avgRpmAt m k > 0 ∧ k < s
        · right
          rw [if_pos hc] at h
          rw [h]
          exact ⟨List.mem_cons_self _ _, hc.1⟩
        · left
          rw [if_neg hc] at h
          exact h
      · right
        exact ⟨List.mem_cons_of_mem _ h.1, h.2⟩
    · intro k' hk' hpos
      rcases List.mem_cons.1 hk' with he | hm
      · rw [he]
        rw [he] at hpos
        split_ifs at h1 with hc
        · exact h1
        · have : ¬ k < s := fun hlt => hc ⟨hpos, hlt⟩
          omega
      · exact h3 k' hm hpos

/-- The result of `ComputePwmBoundaries` on a non-empty map, as the fold over the sorted
keys. -/
theorem ComputePwmBoundaries_eq (fan : Fan) (hne : fan.FanCurveData ≠ []) :
    ComputePwmBoundaries fan =
      (((fan.FanCurveData.keys.insertionSort (· ≤ ·)).foldl (boundaryStep fan.FanCurveData)
          (255, 255, 0)).1,
        ((fan.FanCurveData.keys.insertionSort (· ≤ ·)).foldl (boundaryStep fan.FanCurveData)
          (255, 255, 0)).2.1) := by
  unfold ComputePwmBoundaries
  have hlen : ¬ (fan.FanCurveData.keys.length ≤ 0) := by
    have hpos : 0 < fan.FanCurveData.length := List.length_pos.2 hne
    simp only [IntMap.keys, List.length_map]
    omega
  simp only [hlen, if_false]

theorem mem_sorted_keys (m : IntMap RollingWindow) (k : Int) :
    k ∈ m.keys.insertionSort (· ≤ ·) ↔ k ∈ m.keys :=
  (List.perm_insertionSort (· ≤ ·) m.keys).mem_iff

theorem sorted_keys_pairwise (m : IntMap RollingWindow) :
    (m.keys.insertionSort (· ≤ ·)).Pairwise (· ≤ ·) :=
  List.sorted_insertionSort (· ≤ ·) m.keys

theorem keys_ne_nil_of_mem (m : IntMap RollingWindow) (k : Int) (h : k ∈ m.keys) : m ≠ [] := by
  intro he
  rw [he] at h
  simp [IntMap.keys] at h

/-- C4, as stated, fails: with window averages `100.25` at PWM 10 and `100.75` at PWM 20
the code returns `max_pwm = 10`, a key whose window-averaged RPM is not the maximum. -/
theorem C4_counterexample :
    (∃ k ∈ fractionalFan.FanCurveData.keys,
        F64.lt F64.zero (windowAvgAt fractionalFan.FanCurveData k) = true) ∧
      (ComputePwmBoundaries fractionalFan).2 = 10 ∧
      ¬ (∀ k ∈ fractionalFan.FanCurveData.keys,
          F64.le (windowAvgAt fractionalFan.FanCurveData k)
            (windowAvgAt fractionalFan.FanCurveData (ComputePwmBoundaries fractionalFan).2)
            = true) := by
  decide!

/-- C4, amended: when at least one key has a window-averaged RPM that truncates to a
positive integer, `max_pwm` is the smallest key whose truncated window-averaged RPM
`int(avg)` equals the largest truncated window-averaged RPM. -/
theorem C4_max_pwm_truncated (fan : Fan)
    (hex : ∃ k ∈ fan.FanCurveData.keys, 0 < avgRpmAt fan.FanCurveData k) :
    (ComputePwmBoundaries fan).2 ∈ fan.FanCurveData.keys ∧
      (∀ k ∈ fan.FanCurveData.keys,
        avgRpmAt fan.FanCurveData k ≤ avgRpmAt fan.FanCurveData (ComputePwmBoundaries fan).2) ∧
      ∀ k ∈ fan.FanCurveData.keys,
        avgRpmAt fan.FanCurveData k = avgRpmAt fan.FanCurveData (ComputePwmBoundaries fan).2 →
          (ComputePwmBoundaries fan).2 ≤ k := by
  obtain ⟨k0, hk0, hpos⟩ := hex
  rw [ComputePwmBoundaries_eq fan (keys_ne_nil_of_mem _ k0 hk0)]
  simp only
  rcases foldl_boundaryStep_max fan.FanCurveData _ (sorted_keys_pairwise fan.FanCurveData)
      255 255 0 with h | h
  · have := h.2.2 k0 ((mem_sorted_keys _ _).2 hk0)
    omega
  · obtain ⟨_, h2, h3, h4, h5⟩ := h
    refine ⟨(mem_sorted_keys _ _).1 h2, ?_, ?_⟩
    · intro k hk
      rw [h3]
      exact h4 k ((mem_sorted_keys _ _).2 hk)
    · intro k hk heq
      rw [h3] at heq
      exact h5 k ((mem_sorted_keys _ _).2 hk) heq

/-- Witness for C4 (amended): both averages of `fractionalFan` truncate to `100`, and the
smaller key is returned. -/
theorem C4_max_pwm_truncated_witness :
    (ComputePwmBoundaries fractionalFan).2 ∈ fractionalFan.FanCurveData.keys ∧
      (∀ k ∈ fractionalFan.FanCurveData.keys,
        avgRpmAt fractionalFan.FanCurveData k
          ≤ avgRpmAt fractionalFan.FanCurveData (ComputePwmBoundaries fractionalFan).2) ∧
      ∀ k ∈ fractionalFan.FanCurveData.keys,
        avgRpmAt fractionalFan.FanCurveData k
            = avgRpmAt fractionalFan.FanCurveData (ComputePwmBoundaries fractionalFan).2 →
          (ComputePwmBoundaries fractionalFan).2 ≤ k :=
  C4_max_pwm_truncated fractionalFan ⟨10, by decide, by decide!⟩

/-- C5, as stated, fails: with window averages `0.5` at PWM 3 and `2` at PWM 7 the code
returns `start_pwm = 7`, although PWM 3 has a strictly positive window-averaged RPM. -/
theorem C5_counterexample :
    (∀ k ∈ slowStartFan.FanCurveData.keys, 0 ≤ k ∧ k ≤ 255) ∧
      (3 : Int) ∈ slowStartFan.FanCurveData.keys ∧
      F64.lt F64.zero (windowAvgAt slowStartFan.FanCurveData 3) = true ∧
      (ComputePwmBoundaries slowStartFan).1 = 7 := by
  decide!

/-- C5, amended: for keys in `[0, 255]`, when at least one key has a window-averaged RPM
that truncates to a positive integer (an average of at least 1), `start_pwm` is the
smallest key whose truncated window-averaged RPM `int(avg)` is positive. -/
theorem C5_start_pwm_truncated (fan : Fan)
    (hkeys : ∀ k ∈ fan.FanCurveData.keys, 0 ≤ k ∧ k ≤ 255)
    (hex : ∃ k ∈ fan.FanCurveData.keys, 0 < avgRpmAt fan.FanCurveData k) :
    (ComputePwmBoundaries fan).1 ∈ fan.FanCurveData.keys ∧
      0 < avgRpmAt fan.FanCurveData (ComputePwmBoundaries fan).1 ∧
      ∀ k ∈ fan.FanCurveData.keys, 0 < avgRpmAt fan.FanCurveData k →
        (ComputePwmBoundaries fan).1 ≤ k := by
  obtain ⟨k0, hk0, hpos⟩ := hex
  rw [ComputePwmBoundaries_eq fan (keys_ne_nil_of_mem _ k0 hk0)]
  simp only
  obtain ⟨_, h2, h3⟩ := foldl_boundaryStep_start fan.FanCurveData
    (fan.FanCurveData.keys.insertionSort (· ≤ ·)) 255 255 0
  have hle0 := h3 k0 ((mem_sorted_keys _ _).2 hk0) hpos
  have hk255 := (hkeys k0 hk0).2
  have hres : ((fan.FanCurveData.keys.insertionSort (· ≤ ·)).foldl
        (boundaryStep fan.FanCurveData) (255, 255, 0)).1 ∈ fan.FanCurveData.keys ∧
      0 < avgRpmAt fan.FanCurveData ((fan.FanCurveData.keys.insertionSort (· ≤ ·)).foldl
        (boundaryStep fan.FanCurveData) (255, 255, 0)).1 := by
    rcases h2 with h | h
    · have hk : k0 = 255 := by omega
      rw [h, ← hk]
      exact ⟨hk0, hpos⟩
    · exact ⟨(mem_sorted_keys _ _).1 h.1, h.2⟩
  refine ⟨hres.1, hres.2, ?_⟩
  intro k hk hkpos
  exact h3 k ((mem_sorted_keys _ _).2 hk) hkpos

/-- Witness for C5 (amended): on `slowStartFan` the first key whose average truncates to a
positive integer is PWM 7. -/
theorem C5_start_pwm_truncated_witness :
    (ComputePwmBoundaries slowStartFan).1 ∈ slowStartFan.FanCurveData.keys ∧
      0 < avgRpmAt slowStartFan.FanCurveData (ComputePwmBoundaries slowStartFan).1 ∧
      ∀ k ∈ slowStartFan.FanCurveData.keys, 0 < avgRpmAt slowStartFan.FanCurveData k →
        (ComputePwmBoundaries slowStartFan).1 ≤ k :=
  C5_start_pwm_truncated slowStartFan (by decide) ⟨7, by decide, by decide!⟩

/-- C6, as stated, fails: for a non-empty map whose window averages are all `0` the code
returns `start_pwm = 255`, not `0`. -/
theorem C6_counterexample :
    (∀ k ∈ stoppedFan.FanCurveData.keys, windowAvgAt stoppedFan.FanCurveData k = F64.zero) ∧
      ComputePwmBoundaries stoppedFan = (255, 255) ∧
      ComputePwmBoundaries stoppedFan ≠ (0, 255) := by
  decide!

/-- C6, amended: when no key has a window-averaged RPM that truncates to a positive
integer, `ComputePwmBoundaries` returns `(0, 255)` for the empty map and `(255, 255)` for
every non-empty map. -/
theorem C6_no_positive_rpm (fan : Fan)
    (hno : ∀ k ∈ fan.FanCurveData.keys, avgRpmAt fan.FanCurveData k ≤ 0) :
    ComputePwmBoundaries fan = if fan.FanCurveData = [] then (0, 255) else (255, 255) := by
  by_cases hnil : fan.FanCurveData = []
  · rw [if_pos hnil]
    unfold ComputePwmBoundaries
    simp [hnil, IntMap.keys]
  · rw [if_neg hnil, ComputePwmBoundaries_eq fan hnil]
    obtain ⟨_, h2, _⟩ := foldl_boundaryStep_start fan.FanCurveData
      (fan.FanCurveData.keys.insertionSort (· ≤ ·)) 255 255 0
    have hstart : ((fan.FanCurveData.keys.insertionSort (· ≤ ·)).foldl
        (boundaryStep fan.FanCurveData) (255, 255, 0)).1 = 255 := by
      rcases h2 with h | h
      · exact h
      · have := hno _ ((mem_sorted_keys _ _).1 h.1)
        omega
    have hmax : ((fan.FanCurveData.keys.insertionSort (· ≤ ·)).foldl
        (boundaryStep fan.FanCurveData) (255, 255, 0)).2.1 = 255 := by
      rcases foldl_boundaryStep_max fan.FanCurveData _
          (sorted_keys_pairwise fan.FanCurveData) 255 255 0 with h | h
      · exact h.2.1
      · have := hno _ ((mem_sorted_keys _ _).1 h.2.1)
        omega
    rw [hstart, hmax]

/-- Witness for C6 (amended): the non-empty all-zero map of `stoppedFan`. -/
theorem C6_no_positive_rpm_witness : ComputePwmBoundaries stoppedFan = (255, 255) := by
  have h := C6_no_positive_rpm stoppedFan (by decide!)
  rw [h]
  decide


/-! ### `AttachFanCurveData` -/

/-- C8, evaluated on the `NeverStoppingFan` data `{0→50, 50→50, 255→255}` with a window
of 10: the window of PWM 1 is seeded with the interpolation toward the last recorded key
255 (about `50.8`), not toward the next recorded key 50 (which gives `50`). -/
theorem C8_interpolates_toward_last_key :
    (AttachFanCurveData (some NeverStoppingFan) 10 (emptyFan false)).1.FanCurveData.get 1
        = some ⟨10, List.replicate 10
            (specInterpolation 0 255 1 (Avg [F64.ofInt 50]) (Avg [F64.ofInt 255]))⟩ ∧
      specInterpolation 0 50 1 (Avg [F64.ofInt 50]) (Avg [F64.ofInt 50]) = F64.ofInt 50 ∧
      specInterpolation 0 255 1 (Avg [F64.ofInt 50]) (Avg [F64.ofInt 255]) ≠ F64.ofInt 50 := by
  decide!

/-- C9, evaluated on the `CappedFan` data (highest recorded key 200, average 200) with a
window of 10: the windows of PWM 201 and PWM 255 hold zeros, not the last known value. -/
theorem C9_windows_above_last_key_are_zero :
    (AttachFanCurveData (some CappedFan) 10 (emptyFan false)).1.FanCurveData.get 201
        = some ⟨10, List.replicate 10 F64.zero⟩ ∧
      (AttachFanCurveData (some CappedFan) 10 (emptyFan false)).1.FanCurveData.get 255
        = some ⟨10, List.replicate 10 F64.zero⟩ ∧
      Avg [F64.ofInt 200] = F64.ofInt 200 ∧
      F64.zero ≠ F64.ofInt 200 := by
  decide!

/-- C10: `AttachFanCurveData` returns `os.ErrInvalid` exactly when the persisted data is
nil or has no keys; the fan is then left unchanged; every non-empty data set gives no
error. -/
theorem C10_invalid_iff_empty (curveData : Option (IntMap (List F64))) (size : Nat)
    (fan : Fan) :
    ((AttachFanCurveData curveData size fan).2 = some GoError.ErrInvalid ↔
        (curveData = none ∨ curveData = some [])) ∧
      ((curveData = none ∨ curveData = some []) →
        (AttachFanCurveData curveData size fan).1 = fan) ∧
      (¬ (curveData = none ∨ curveData = some []) →
        (AttachFanCurveData curveData size fan).2 = none) := by
  cases curveData with
  | none => simp [AttachFanCurveData]
  | some cd =>
    by_cases hnil : cd = []
    · subst hnil
      simp [AttachFanCurveData]
    · have hlen : ¬ (cd.length ≤ 0) := by
        have := List.length_pos.2 hnil
        omega
      simp [AttachFanCurveData, hnil, hlen]

/-- Witness for C10: the empty data set is rejected and leaves the fan as it was, the
`CappedFan` data set is accepted. -/
theorem C10_invalid_iff_empty_witness :
    AttachFanCurveData (some []) 10 (emptyFan false)
        = (emptyFan false, some GoError.ErrInvalid) ∧
      (AttachFanCurveData (some CappedFan) 10 (emptyFan false)).2 = none := by
  have h1 := C10_invalid_iff_empty (some []) 10 (emptyFan false)
  have h2 := C10_invalid_iff_empty (some CappedFan) 10 (emptyFan false)
  refine ⟨Prod.ext (h1.2.1 (Or.inr rfl)) (h1.1.2 (Or.inr rfl)), h2.2.2 ?_⟩
  intro h
  rcases h with h | h
  · exact absurd h (by simp)
  · exact absurd h (by simp [CappedFan])


/-! ### `UpdateFanSpeed` and the recovery step -/

/-- C11, evaluated on the dead fan (never-stop, last set to `max_pwm = 255`, no RPM) with
the curve asking for 255 and every write succeeding: `UpdateFanSpeed` returns no error and
its one write is `SetPwm(-1)`. -/
theorem C11_sentinel_is_written :
    (calculateTargetPwm deadDevice.fan deadDevice.GetPwm 255).2 = -1 ∧
      (UpdateFanSpeed deadDevice (Except.ok 255)).2 = none ∧
      (UpdateFanSpeed deadDevice (Except.ok 255)).1.calls = [DeviceCall.SetPwm (-1)] := by
  decide!

/-- C12, as stated, fails: when the PWM write fails with `DeviceIO 5` and re-enabling
manual control succeeds, `UpdateFanSpeed` returns no error. -/
theorem C12_counterexample :
    (calculateTargetPwm stuckPwmDevice.fan stuckPwmDevice.GetPwm 127).2 = 49 ∧
      stuckPwmDevice.GetPwm = 0 ∧
      stuckPwmDevice.fault stuckPwmDevice.calls (DeviceCall.SetPwm 49)
        = some (GoError.DeviceIO 5) ∧
      (UpdateFanSpeed stuckPwmDevice (Except.ok 127)).2 = none ∧
      (UpdateFanSpeed stuckPwmDevice (Except.ok 127)).1.calls
        = [DeviceCall.SetPwm 49, DeviceCall.SetPwmEnabled 1] := by
  decide!


theorem setPwm_fail (d : Device) (target : Int) (e : GoError) (hne : target ≠ d.pwm)
    (hf : d.fault d.calls (DeviceCall.SetPwm target) = some e) :
    setPwm d target = ({ d with calls := d.calls ++ [DeviceCall.SetPwm target] }, some e) := by
  unfold setPwm Device.GetPwm Device.SetPwm
  have hb : (target == d.pwm) = false := by simpa using hne
  simp only [hb, hf]
  rfl

/-- C12, amended: when the curve evaluates, the target differs from the current PWM and the
PWM write fails with `e`, `UpdateFanSpeed` tries to re-enable manual PWM control and returns
the outcome of that attempt: nil when `SetPwmEnabled(1)` succeeds, otherwise whatever
`SetPwmEnabled(0)` returns.  The write error `e` itself is logged, not returned. -/
theorem C12_write_error_outcome (d : Device) (optimal : Int) (e : GoError)
    (hne : (calculateTargetPwm d.fan d.GetPwm optimal).2 ≠ d.pwm)
    (hf : d.fault d.calls (DeviceCall.SetPwm (calculateTargetPwm d.fan d.GetPwm optimal).2)
      = some e) :
    (UpdateFanSpeed d (Except.ok optimal)).2 =
      (match d.fault
          (d.calls ++ [DeviceCall.SetPwm (calculateTargetPwm d.fan d.GetPwm optimal).2])
          (DeviceCall.SetPwmEnabled 1) with
        | none => none
        | some _ =>
          d.fault
            (d.calls ++ [DeviceCall.SetPwm (calculateTargetPwm d.fan d.GetPwm optimal).2]
              ++ [DeviceCall.SetPwmEnabled 1])
            (DeviceCall.SetPwmEnabled 0)) := by
  unfold UpdateFanSpeed
  simp only
  rw [setPwm_fail { d with fan := (calculateTargetPwm d.fan d.GetPwm optimal).1 } _ e hne hf]
  simp only [trySetManualPwm, Device.SetPwmEnabled]
  cases h1 : d.fault
      (d.calls ++ [DeviceCall.SetPwm (calculateTargetPwm d.fan d.GetPwm optimal).2])
      (DeviceCall.SetPwmEnabled 1) with
  | none => rfl
  | some e1 =>
    simp only
    cases h0 : d.fault
        (d.calls ++ [DeviceCall.SetPwm (calculateTargetPwm d.fan d.GetPwm optimal).2]
          ++ [DeviceCall.SetPwmEnabled 1])
        (DeviceCall.SetPwmEnabled 0) with
    | none => rfl
    | some e0 => rfl

/-- Witness for C12 (amended): on the device where every write fails with `DeviceIO 7`,
`UpdateFanSpeed` returns the error of `SetPwmEnabled(0)`. -/
theorem C12_write_error_outcome_witness :
    (UpdateFanSpeed brokenDevice (Except.ok 127)).2 = some (GoError.DeviceIO 7) :=
  C12_write_error_outcome brokenDevice 127 (GoError.DeviceIO 7) (by decide!) rfl

theorem Device.SetPwmEnabled_calls (d : Device) (v : Int) :
    (d.SetPwmEnabled v).1.calls = d.calls ++ [DeviceCall.SetPwmEnabled v] := by
  unfold Device.SetPwmEnabled
  split <;> rfl

theorem Device.SetPwmEnabled_err (d : Device) (v : Int) :
    (d.SetPwmEnabled v).2 = d.fault d.calls (DeviceCall.SetPwmEnabled v) := by
  unfold Device.SetPwmEnabled
  split
  · rename_i err h
    rw [h]
  · rename_i h
    rw [h]

theorem Device.SetPwmEnabled_pwm (d : Device) (v : Int) : (d.SetPwmEnabled v).1.pwm = d.pwm := by
  unfold Device.SetPwmEnabled
  split <;> rfl

theorem setPwm_calls (d : Device) (target : Int) :
    (setPwm d target).1.calls
      = d.calls ++ (if d.pwm = target then [] else [DeviceCall.SetPwm target]) := by
  unfold setPwm Device.GetPwm Device.SetPwm
  by_cases hp : d.pwm = target
  · have hb : (target == d.pwm) = true := by simpa using hp.symm
    simp [hb, hp]
  · have hb : (target == d.pwm) = false := by
      simpa using fun h : target = d.pwm => hp h.symm
    simp only [hb, hp, if_false, Bool.false_eq_true]
    cases d.fault d.calls (DeviceCall.SetPwm target) <;> rfl

/-- C13: the recovery step returns exactly the error `e` it was entered with.  When
`original_pwm_enable ≠ 1` it first writes `pwm_enable = original_pwm_enable` and, if that
succeeds, writes nothing else; when `original_pwm_enable = 1` or the restore fails, it
writes PWM `MaxPwmValue = 255` unless the current PWM already is 255. -/
theorem C13_recovery_returns_error (d : Device) (e : GoError) :
    (runRecovery d e).2 = some e ∧
      (d.fan.OriginalPwmEnabled ≠ 1 →
        d.fault d.calls (DeviceCall.SetPwmEnabled d.fan.OriginalPwmEnabled) = none →
        (runRecovery d e).1.calls
          = d.calls ++ [DeviceCall.SetPwmEnabled d.fan.OriginalPwmEnabled]) ∧
      (d.fan.OriginalPwmEnabled ≠ 1 →
        d.fault d.calls (DeviceCall.SetPwmEnabled d.fan.OriginalPwmEnabled) ≠ none →
        (runRecovery d e).1.calls
          = d.calls ++ [DeviceCall.SetPwmEnabled d.fan.OriginalPwmEnabled]
            ++ (if d.pwm = 255 then [] else [DeviceCall.SetPwm 255])) ∧
      (d.fan.OriginalPwmEnabled = 1 →
        (runRecovery d e).1.calls
          = d.calls ++ (if d.pwm = 255 then [] else [DeviceCall.SetPwm 255])) := by
  refine ⟨?_, ?_, ?_, ?_⟩
  · unfold runRecovery
    split_ifs
    · simp only
      split <;> rfl
    · rfl
  · intro h1 hf
    have hb : (d.fan.OriginalPwmEnabled != 1) = true := by simpa using h1
    have herr := Device.SetPwmEnabled_err d d.fan.OriginalPwmEnabled
    rw [hf] at herr
    unfold runRecovery
    simp only [hb, if_true, herr]
    exact Device.SetPwmEnabled_calls d _
  · intro h1 hf
    have hb : (d.fan.OriginalPwmEnabled != 1) = true := by simpa using h1
    obtain ⟨e1, he1⟩ := Option.ne_none_iff_exists'.1 hf
    have herr := Device.SetPwmEnabled_err d d.fan.OriginalPwmEnabled
    rw [he1] at herr
    unfold runRecovery
    simp only [hb, if_true, herr]
    rw [setPwm_calls, Device.SetPwmEnabled_calls, Device.SetPwmEnabled_pwm]
    rfl
  · intro h1
    have hb : (d.fan.OriginalPwmEnabled != 1) = false := by simpa using h1
    unfold runRecovery
    simp only [hb]
    rw [if_neg (by simp), setPwm_calls]
    rfl

/-- Witness for C13: on the device where every write fails (original `pwm_enable = 2`,
current PWM 40) the recovery returns the error it was given after trying the restore and the
write of 255; on the dead device (original `pwm_enable = 0`) the restore succeeds and no PWM
is written. -/
theorem C13_recovery_returns_error_witness :
    (runRecovery brokenDevice (GoError.DeviceIO 3)).2 = some (GoError.DeviceIO 3) ∧
      (runRecovery brokenDevice (GoError.DeviceIO 3)).1.calls
        = [DeviceCall.SetPwmEnabled 2, DeviceCall.SetPwm 255] ∧
      (runRecovery deadDevice (GoError.DeviceIO 3)).1.calls = [DeviceCall.SetPwmEnabled 0] := by
  have hb := C13_recovery_returns_error brokenDevice (GoError.DeviceIO 3)
  have hd := C13_recovery_returns_error deadDevice (GoError.DeviceIO 3)
  refine ⟨hb.1, ?_, ?_⟩
  · have h := hb.2.2.1 (by decide) (by decide)
    rw [h]
    decide
  · have h := hd.2.1 (by decide) (by decide)
    rw [h]
    decide


/-! ### More on `calculateTargetPwm` -/

theorem scaleToRange_zero (mn mx : Int) (hmn : 0 ≤ mn) (hle : mn ≤ mx) (hmx : mx ≤ 255) :
    scaleToRange 0 mn mx = 0 := by
  rw [scaleToRange_eq 0 mn mx (le_refl 0) (by norm_num) hmn hle hmx]
  have hne : ¬ ((0 : Int), mx - mn) ∈ F64.scaleExceptions := by
    simp [F64.scaleExceptions]
  simp [hne]

theorem scaleToRange_full (mn mx : Int) (hmn : 0 ≤ mn) (hle : mn ≤ mx) (hmx : mx ≤ 255) :
    scaleToRange 255 mn mx = mx - mn := by
  rw [scaleToRange_eq 255 mn mx (by norm_num) (le_refl 255) hmn hle hmx]
  have hne : ¬ ((255 : Int), mx - mn) ∈ F64.scaleExceptions := by
    simp [F64.scaleExceptions]
  simp only [hne, if_false]
  omega

/-- The range mapping is monotone in the clamped target. -/
theorem scaleToRange_mono (t t' mn mx : Int) (ht0 : 0 ≤ t) (htt : t ≤ t') (ht : t' ≤ 255)
    (hmn : 0 ≤ mn) (hle : mn ≤ mx) (hmx : mx ≤ 255) :
    scaleToRange t mn mx ≤ scaleToRange t' mn mx := by
  rw [scaleToRange_eq t mn mx ht0 (le_trans htt ht) hmn hle hmx,
    scaleToRange_eq t' mn mx (le_trans ht0 htt) ht hmn hle hmx]
  have hd : 0 ≤ mx - mn := by omega
  generalize mx - mn = d at *
  by_cases hex : (t', d) ∈ F64.scaleExceptions
  · rcases eq_or_lt_of_le htt with heq | hlt
    · rw [heq]
    · rw [if_pos hex]
      simp only [F64.scaleExceptions, List.mem_cons, Prod.mk.injEq, List.mem_singleton,
        List.not_mem_nil, or_false] at hex
      rcases hex with h | h | h | h | h | h | h | h | h | h | h | h <;>
        · obtain ⟨h1, h2⟩ := h
          subst h1
          subst h2
          split_ifs <;> omega
  · rw [if_neg hex]
    have hprod : t * d ≤ t' * d := mul_le_mul_of_nonneg_right htt hd
    have hq : t * d / 255 ≤ t' * d / 255 := Int.ediv_le_ediv (by norm_num) hprod
    split_ifs <;> omega

theorem mappedTarget_zero (fan : Fan) (h0 : 0 ≤ fan.MinPwm) (h1 : fan.MinPwm ≤ fan.MaxPwm)
    (h2 : fan.MaxPwm ≤ 255) : mappedTarget fan 0 = fan.MinPwm := by
  unfold mappedTarget MaxPwmValue MinPwmValue
  simp only [show ¬ ((0 : Int) > 255) by norm_num, show ¬ ((0 : Int) < 0) by norm_num, if_false]
  rw [scaleToRange_zero _ _ h0 h1 h2]
  omega

/-- C16: for a never-stop fan with `0 ≤ min_pwm ≤ max_pwm ≤ 255` and `optimal = 0`,
`calculateTargetPwm` returns `-1` or the fan's `min_pwm` as read after the call; when
`min_pwm > 0` and the RPM is positive the target is the positive `min_pwm`. -/
theorem C16_zero_maps_to_min (fan : Fan) (currentPwm : Int)
    (hn : fan.Config.NeverStop = true)
    (h0 : 0 ≤ fan.MinPwm) (h1 : fan.MinPwm ≤ fan.MaxPwm) (h2 : fan.MaxPwm ≤ 255) :
    ((calculateTargetPwm fan currentPwm 0).2 = -1 ∨
        (calculateTargetPwm fan currentPwm 0).2 = (calculateTargetPwm fan currentPwm 0).1.MinPwm) ∧
      (0 < fan.MinPwm → 0 < fan.RpmAvg.units →
        (calculateTargetPwm fan currentPwm 0).2 = fan.MinPwm ∧
          0 < (calculateTargetPwm fan currentPwm 0).2) := by
  have hT := mappedTarget_zero fan h0 h1 h2
  have _ := hn
  rw [calculateTargetPwm_eq, hT]
  constructor
  · split_ifs
    · left
      rfl
    · right
      rfl
    · right
      rfl
  · intro hpos hrpm
    have hc : ¬ (fan.Config.NeverStop = true ∧ fan.LastSetPwm = fan.MinPwm ∧
        fan.RpmAvg.units ≤ 0) := by
      intro h
      omega
    rw [if_neg hc]
    exact ⟨rfl, hpos⟩

/-- Witness for C16, the test's fan: `min_pwm = 10`, RPM 100, `optimal = 0` gives target 10. -/
theorem C16_zero_maps_to_min_witness :
    (calculateTargetPwm spinningFan 0 0).2 = 10 ∧ 0 < (calculateTargetPwm spinningFan 0 0).2 :=
  (C16_zero_maps_to_min spinningFan 0 rfl (by decide) (by decide) (by decide)).2
    (by decide) (by decide!)

/-- C17, as stated, fails: the stalled never-stop fan satisfies
`0 ≤ min_pwm ≤ start_pwm ≤ max_pwm ≤ 255` (10, 10, 255) before the call; afterwards
`min_pwm = 11` exceeds `start_pwm = 10`. -/
theorem C17_counterexample :
    (0 ≤ stalledFan.MinPwm ∧ stalledFan.MinPwm ≤ stalledFan.StartPwm ∧
        stalledFan.StartPwm ≤ stalledFan.MaxPwm ∧ stalledFan.MaxPwm ≤ 255) ∧
      ¬ ((calculateTargetPwm stalledFan 10 0).1.MinPwm
          ≤ (calculateTargetPwm stalledFan 10 0).1.StartPwm) := by
  decide!

/-- C17, amended: from a state with `0 ≤ min_pwm ≤ start_pwm ≤ max_pwm ≤ 255`,
`calculateTargetPwm` leaves `start_pwm` and `max_pwm` unchanged and keeps
`0 ≤ min_pwm ≤ max_pwm ≤ 255` and `0 ≤ start_pwm ≤ max_pwm`; `min_pwm ≤ start_pwm` is kept
unless the never-stop adjustment raised a `min_pwm` equal to `start_pwm`, which leaves
`min_pwm = start_pwm + 1`. -/
theorem C17_range_invariant (fan : Fan) (currentPwm optimal : Int)
    (h0 : 0 ≤ fan.MinPwm) (h1 : fan.MinPwm ≤ fan.StartPwm) (h2 : fan.StartPwm ≤ fan.MaxPwm)
    (h3 : fan.MaxPwm ≤ 255) :
    (calculateTargetPwm fan currentPwm optimal).1.StartPwm = fan.StartPwm ∧
      (calculateTargetPwm fan currentPwm optimal).1.MaxPwm = fan.MaxPwm ∧
      0 ≤ (calculateTargetPwm fan currentPwm optimal).1.MinPwm ∧
      (calculateTargetPwm fan currentPwm optimal).1.MinPwm
        ≤ (calculateTargetPwm fan currentPwm optimal).1.MaxPwm ∧
      0 ≤ (calculateTargetPwm fan currentPwm optimal).1.StartPwm ∧
      (calculateTargetPwm fan currentPwm optimal).1.StartPwm
        ≤ (calculateTargetPwm fan currentPwm optimal).1.MaxPwm ∧
      (calculateTargetPwm fan currentPwm optimal).1.MaxPwm ≤ 255 ∧
      ((calculateTargetPwm fan currentPwm optimal).1.MinPwm
          ≤ (calculateTargetPwm fan currentPwm optimal).1.StartPwm ∨
        (fan.MinPwm = fan.StartPwm ∧
          (calculateTargetPwm fan currentPwm optimal).1.MinPwm = fan.StartPwm + 1)) := by
  obtain ⟨hlo, hhi⟩ := mappedTarget_bounds fan optimal h0 (le_trans h1 h2) h3
  rw [calculateTargetPwm_eq]
  split_ifs with hc hm
  · exact ⟨rfl, rfl, h0, le_trans h1 h2, le_trans h0 h1, h2, h3, Or.inl h1⟩
  · refine ⟨rfl, rfl, ?_, ?_, ?_, h2, h3, ?_⟩
    · show 0 ≤ fan.MinPwm + 1
      omega
    · show fan.MinPwm + 1 ≤ fan.MaxPwm
      omega
    · show 0 ≤ fan.StartPwm
      omega
    · show fan.MinPwm + 1 ≤ fan.StartPwm ∨
        (fan.MinPwm = fan.StartPwm ∧ fan.MinPwm + 1 = fan.StartPwm + 1)
      by_cases heq : fan.MinPwm = fan.StartPwm
      · right
        exact ⟨heq, by omega⟩
      · left
        omega
  · exact ⟨rfl, rfl, h0, le_trans h1 h2, le_trans h0 h1, h2, h3, Or.inl h1⟩

/-- Witness for C17 (amended): the stalled fan ends with `min_pwm = 11 = start_pwm + 1`. -/
theorem C17_range_invariant_witness :
    (calculateTargetPwm stalledFan 10 0).1.StartPwm = 10 ∧
      (calculateTargetPwm stalledFan 10 0).1.MaxPwm = 255 ∧
      (calculateTargetPwm stalledFan 10 0).1.MinPwm
        ≤ (calculateTargetPwm stalledFan 10 0).1.MaxPwm := by
  have h := C17_range_invariant stalledFan 10 0 (by decide) (by decide) (by decide) (by decide)
  exact ⟨h.1, h.2.1, h.2.2.2.1⟩

theorem mappedTarget_mono (fan : Fan) (a b : Int) (hab : a ≤ b) (h0 : 0 ≤ fan.MinPwm)
    (h1 : fan.MinPwm ≤ fan.MaxPwm) (h2 : fan.MaxPwm ≤ 255) :
    mappedTarget fan a ≤ mappedTarget fan b := by
  unfold mappedTarget
  obtain ⟨ha0, ha1⟩ := clamp_bounds a
  obtain ⟨hb0, hb1⟩ := clamp_bounds b
  have hcl : (if a > MaxPwmValue then MaxPwmValue else if a < MinPwmValue then MinPwmValue
      else a) ≤ (if b > MaxPwmValue then MaxPwmValue else if b < MinPwmValue then MinPwmValue
      else b) := by
    unfold MaxPwmValue MinPwmValue
    split_ifs <;> omega
  have hm := scaleToRange_mono _ _ fan.MinPwm fan.MaxPwm ha0 hcl hb1 h0 h1 h2
  simp only
  omega

theorem mappedTarget_low (fan : Fan) (a : Int) (ha : a ≤ 0) (h0 : 0 ≤ fan.MinPwm)
    (h1 : fan.MinPwm ≤ fan.MaxPwm) (h2 : fan.MaxPwm ≤ 255) :
    mappedTarget fan a = fan.MinPwm := by
  unfold mappedTarget MaxPwmValue MinPwmValue
  have hc : (if a > 255 then (255 : Int) else if a < 0 then 0 else a) = 0 := by
    split_ifs <;> omega
  simp only [hc]
  rw [scaleToRange_zero _ _ h0 h1 h2]
  omega

theorem mappedTarget_high (fan : Fan) (a : Int) (ha : 255 ≤ a) (h0 : 0 ≤ fan.MinPwm)
    (h1 : fan.MinPwm ≤ fan.MaxPwm) (h2 : fan.MaxPwm ≤ 255) :
    mappedTarget fan a = fan.MaxPwm := by
  unfold mappedTarget MaxPwmValue MinPwmValue
  have hc : (if a > 255 then (255 : Int) else if a < 0 then 0 else a) = 255 := by
    split_ifs <;> omega
  simp only [hc]
  rw [scaleToRange_full _ _ h0 h1 h2]
  omega

/-- C18: for a fan that is not never-stop, with `0 ≤ min_pwm ≤ max_pwm ≤ 255`,
`calculateTargetPwm` is monotone non-decreasing in `optimal` over all integers, maps
`optimal ≤ 0` to `min_pwm` and `optimal ≥ 255` to `max_pwm`, and leaves the fan unchanged. -/
theorem C18_monotone_in_optimal (fan : Fan) (c1 c2 a b : Int)
    (hn : fan.Config.NeverStop = false)
    (h0 : 0 ≤ fan.MinPwm) (h1 : fan.MinPwm ≤ fan.MaxPwm) (h2 : fan.MaxPwm ≤ 255)
    (hab : a ≤ b) :
    (calculateTargetPwm fan c1 a).2 ≤ (calculateTargetPwm fan c2 b).2 ∧
      (a ≤ 0 → (calculateTargetPwm fan c1 a).2 = fan.MinPwm) ∧
      (255 ≤ a → (calculateTargetPwm fan c1 a).2 = fan.MaxPwm) ∧
      (calculateTargetPwm fan c1 a).1 = fan := by
  have hns : ∀ x : Int, ¬ (fan.Config.NeverStop = true ∧ fan.LastSetPwm = mappedTarget fan x ∧
      fan.RpmAvg.units ≤ 0) := by
    intro x h
    rw [hn] at h
    exact absurd h.1 (by decide)
  rw [calculateTargetPwm_eq, calculateTargetPwm_eq, if_neg (hns a), if_neg (hns b)]
  refine ⟨mappedTarget_mono fan a b hab h0 h1 h2, ?_, ?_, rfl⟩
  · intro ha
    exact mappedTarget_low fan a ha h0 h1 h2
  · intro ha
    exact mappedTarget_high fan a ha h0 h1 h2

/-- Witness for C18, on the fan with range `[0, 100]`: `optimal = -5` gives 0,
`optimal = 300` gives 100, and the target for 146 is at most the target for 147. -/
theorem C18_monotone_in_optimal_witness :
    (calculateTargetPwm rangeFan 0 (-5)).2 = 0 ∧
      (calculateTargetPwm rangeFan 0 300).2 = 100 ∧
      (calculateTargetPwm rangeFan 0 146).2 ≤ (calculateTargetPwm rangeFan 0 147).2 ∧
      (calculateTargetPwm rangeFan 0 300).1 = rangeFan := by
  have hl := C18_monotone_in_optimal rangeFan 0 0 (-5) 300 rfl (by decide) (by decide)
    (by decide) (by decide)
  have hh := C18_monotone_in_optimal rangeFan 0 0 300 300 rfl (by decide) (by decide)
    (by decide) (by decide)
  have hm := C18_monotone_in_optimal rangeFan 0 0 146 147 rfl (by decide) (by decide)
    (by decide) (by decide)
  exact ⟨hl.2.1 (by decide), hh.2.2.1 (by decide), hm.1, hh.2.2.2⟩


/-! ### The fan after `AttachFanCurveData` -/

theorem pointValuesAt_data (cd : IntMap (List F64)) (st : AttachState) (i : Nat) :
    (pointValuesAt cd st i).1.data = st.data := by
  unfold pointValuesAt
  simp only
  split_ifs <;> rfl

theorem attachStep_data (cd : IntMap (List F64)) (size : Nat) (st : AttachState) (i : Nat) :
    (attachStep cd size st i).data
      = st.data.set i (fillRollingWindow size (pointValuesAt cd st i).2) := by
  unfold attachStep
  simp only [pointValuesAt_data]

theorem keys_set (m : IntMap RollingWindow) (k : Int) (v : RollingWindow) :
    ∀ x ∈ (m.set k v).keys, x = k ∨ x ∈ m.keys := by
  intro x hx
  simp only [IntMap.set, IntMap.keys, List.map_cons, List.mem_cons, List.mem_map,
    List.mem_filter] at hx
  rcases hx with h | ⟨e, ⟨he, _⟩, hx⟩
  · left
    exact h
  · right
    simp only [IntMap.keys, List.mem_map]
    exact ⟨e, he, hx⟩

theorem keys_foldl_attachStep (cd : IntMap (List F64)) (size : Nat) :
    ∀ (l : List Nat) (st : AttachState),
      ∀ x ∈ (l.foldl (attachStep cd size) st).data.keys,
        x ∈ st.data.keys ∨ ∃ i ∈ l, x = (i : Int) := by
  intro l
  induction l with
  | nil =>
    intro st x hx
    left
    exact hx
  | cons i t ih =>
    intro st x hx
    rw [List.foldl_cons] at hx
    rcases ih _ x hx with h | ⟨j, hj, hxj⟩
    · rw [attachStep_data] at h
      rcases keys_set _ _ _ x h with h' | h'
      · right
        exact ⟨i, List.mem_cons_self _ _, h'⟩
      · left
        exact h'
    · right
      exact ⟨j, List.mem_cons_of_mem _ hj, hxj⟩

/-- On a map whose keys lie in `[0, 255]` the boundaries satisfy
`0 ≤ startPwm ≤ maxPwm ≤ 255`. -/
theorem ComputePwmBoundaries_bounds (fan : Fan)
    (hk : ∀ k ∈ fan.FanCurveData.keys, 0 ≤ k ∧ k ≤ 255) :
    0 ≤ (ComputePwmBoundaries fan).1 ∧
      (ComputePwmBoundaries fan).1 ≤ (ComputePwmBoundaries fan).2 ∧
      (ComputePwmBoundaries fan).2 ≤ 255 := by
  by_cases hnil : fan.FanCurveData = []
  · unfold ComputePwmBoundaries
    simp [hnil, IntMap.keys]
  · rw [ComputePwmBoundaries_eq fan hnil]
    obtain ⟨h1, h2, h3⟩ := foldl_boundaryStep_start fan.FanCurveData
      (fan.FanCurveData.keys.insertionSort (· ≤ ·)) 255 255 0
    have hmax := foldl_boundaryStep_max fan.FanCurveData _
      (sorted_keys_pairwise fan.FanCurveData) 255 255 0
    simp only
    generalize ((fan.FanCurveData.keys.insertionSort (· ≤ ·)).foldl
      (boundaryStep fan.FanCurveData) (255, 255, 0)) = res at *
    have hs0 : 0 ≤ res.1 := by
      rcases h2 with h | h
      · omega
      · exact (hk _ ((mem_sorted_keys _ _).1 h.1)).1
    rcases hmax with h | h
    · refine ⟨hs0, ?_, ?_⟩ <;> omega
    · obtain ⟨hr, hm, ha, _, _⟩ := h
      have hle := h3 _ hm (by omega)
      exact ⟨hs0, hle, (hk _ ((mem_sorted_keys _ _).1 hm)).2⟩

/-- The result of `AttachFanCurveData` on a non-empty data set. -/
theorem AttachFanCurveData_eq (cd : IntMap (List F64)) (size : Nat) (fan : Fan)
    (hne : cd ≠ []) :
    AttachFanCurveData (some cd) size fan =
      ({ fan with
          FanCurveData := ((List.range 256).foldl (attachStep cd size)
            { lastValueIdx := 0, lastValueAvg := F64.zero, nextValueIdx := 0,
              nextValueAvg := F64.zero, data := fan.FanCurveData }).data
          StartPwm := (ComputePwmBoundaries { fan with
            FanCurveData := ((List.range 256).foldl (attachStep cd size)
              { lastValueIdx := 0, lastValueAvg := F64.zero, nextValueIdx := 0,
                nextValueAvg := F64.zero, data := fan.FanCurveData }).data }).1
          MaxPwm := (ComputePwmBoundaries { fan with
            FanCurveData := ((List.range 256).foldl (attachStep cd size)
              { lastValueIdx := 0, lastValueAvg := F64.zero, nextValueIdx := 0,
                nextValueAvg := F64.zero, data := fan.FanCurveData }).data }).2
          MinPwm := (ComputePwmBoundaries { fan with
            FanCurveData := ((List.range 256).foldl (attachStep cd size)
              { lastValueIdx := 0, lastValueAvg := F64.zero, nextValueIdx := 0,
                nextValueAvg := F64.zero, data := fan.FanCurveData }).data }).1 }, none) := by
  have hlen : ¬ (cd.length ≤ 0) := by
    have := List.length_pos.2 hne
    omega
  unfold AttachFanCurveData
  simp only [hlen, if_false]

/-- C14: attaching a non-empty data set (keys in `[0, 255]`, window of at least one
sample) to a fan whose map is empty succeeds and leaves
`0 ≤ min_pwm = start_pwm ≤ max_pwm ≤ 255`, with `(start_pwm, max_pwm)` the boundaries of
the attached map. -/
theorem C14_attached_fan_invariant (cd : IntMap (List F64)) (size : Nat) (fan : Fan)
    (hne : cd ≠ []) (_hkeys : ∀ k ∈ cd.keys, 0 ≤ k ∧ k ≤ 255) (_hsize : 1 ≤ size)
    (hempty : fan.FanCurveData = []) :
    (AttachFanCurveData (some cd) size fan).2 = none ∧
      0 ≤ (AttachFanCurveData (some cd) size fan).1.MinPwm ∧
      (AttachFanCurveData (some cd) size fan).1.MinPwm
        = (AttachFanCurveData (some cd) size fan).1.StartPwm ∧
      (AttachFanCurveData (some cd) size fan).1.StartPwm
        ≤ (AttachFanCurveData (some cd) size fan).1.MaxPwm ∧
      (AttachFanCurveData (some cd) size fan).1.MaxPwm ≤ 255 ∧
      ((AttachFanCurveData (some cd) size fan).1.StartPwm,
          (AttachFanCurveData (some cd) size fan).1.MaxPwm)
        = ComputePwmBoundaries (AttachFanCurveData (some cd) size fan).1 := by
  rw [AttachFanCurveData_eq cd size fan hne]
  have hk : ∀ k ∈ ({ fan with FanCurveData := ((List.range 256).foldl (attachStep cd size)
      { lastValueIdx := 0, lastValueAvg := F64.zero, nextValueIdx := 0,
        nextValueAvg := F64.zero, data := fan.FanCurveData }).data } : Fan).FanCurveData.keys,
      0 ≤ k ∧ k ≤ 255 := by
    intro k hk
    rcases keys_foldl_attachStep cd size _ _ k hk with h | ⟨i, hi, hki⟩
    · rw [hempty] at h
      simp [IntMap.keys] at h
    · have := List.mem_range.1 hi
      omega
  obtain ⟨hb0, hb1, hb2⟩ := ComputePwmBoundaries_bounds _ hk
  exact ⟨rfl, hb0, rfl, hb1, hb2, rfl⟩

/-- Witness for C14: the `CappedFan` data set attached to the empty fan with a window of
10. -/
theorem C14_attached_fan_invariant_witness :
    (AttachFanCurveData (some CappedFan) 10 (emptyFan false)).2 = none ∧
      0 ≤ (AttachFanCurveData (some CappedFan) 10 (emptyFan false)).1.MinPwm ∧
      (AttachFanCurveData (some CappedFan) 10 (emptyFan false)).1.MinPwm
        = (AttachFanCurveData (some CappedFan) 10 (emptyFan false)).1.StartPwm ∧
      (AttachFanCurveData (some CappedFan) 10 (emptyFan false)).1.StartPwm
        ≤ (AttachFanCurveData (some CappedFan) 10 (emptyFan false)).1.MaxPwm ∧
      (AttachFanCurveData (some CappedFan) 10 (emptyFan false)).1.MaxPwm ≤ 255 ∧
      ((AttachFanCurveData (some CappedFan) 10 (emptyFan false)).1.StartPwm,
          (AttachFanCurveData (some CappedFan) 10 (emptyFan false)).1.MaxPwm)
        = ComputePwmBoundaries (AttachFanCurveData (some CappedFan) 10 (emptyFan false)).1 :=
  C14_attached_fan_invariant CappedFan 10 (emptyFan false) (by simp [CappedFan])
    (by decide) (by decide) rfl

/-! ## The highest recorded key after `AttachFanCurveData` -/

/-! ### Rounding never crosses a representable value -/

namespace F64

theorem ilog2_zero : ilog2 0 = 0 := by
  rfl

theorem ilog2_mono (a b : Nat) (h : a ≤ b) : ilog2 a ≤ ilog2 b := by
  rcases Nat.eq_zero_or_pos a with ha | ha
  · rw [ha, ilog2_zero]
    exact Nat.zero_le _
  · have h1 := (ilog2_spec a ha).1
    have h2 := (ilog2_spec b (lt_of_lt_of_le ha h)).2
    have h3 : 2 ^ ilog2 a < 2 ^ (ilog2 b + 1) := lt_of_le_of_lt (le_trans h1 h) h2
    have := (Nat.pow_lt_pow_iff_right (by norm_num)).1 h3
    omega

theorem rep_zero : Rep 0 := by
  unfold Rep
  exact dvd_zero _

/-- A significand below `2^53` times a power of two is representable. -/
theorem rep_mul_two_pow (m j : Nat) (hm : m < 2 ^ 53) : Rep (m * 2 ^ j) := by
  unfold Rep
  rcases Nat.eq_zero_or_pos m with h0 | h0
  · rw [h0, Nat.zero_mul]
    exact dvd_zero _
  · have hlt : m * 2 ^ j < 2 ^ (53 + j) := by
      rw [pow_add]
      exact Nat.mul_lt_mul_of_pos_right hm (by positivity)
    have hl := ilog2_lt_of_lt_pow _ _ hlt (Nat.mul_pos h0 (by positivity))
    have he : ilog2 (m * 2 ^ j) - 52 ≤ j := by omega
    exact Dvd.dvd.mul_left (pow_dvd_pow 2 he) m

/-- Rounding `p / q` stays at or below every representable value above `p / q`. -/
theorem roundNat_le_of_le (p q y : Nat) (hq : 0 < q) (hy : Rep y) (h : p ≤ y * q) :
    roundNat p q ≤ y := by
  have hf : p / q ≤ y := Nat.div_le_of_le_mul (by rw [Nat.mul_comm]; exact h)
  have hle : ilog2 (p / q) - 52 ≤ ilog2 y - 52 := by
    have := ilog2_mono _ _ hf
    omega
  have hdvd : 2 ^ (ilog2 (p / q) - 52) ∣ y := Dvd.dvd.trans (pow_dvd_pow 2 hle) hy
  rw [roundNat_eq]
  generalize ilog2 (p / q) - 52 = e at *
  obtain ⟨c, hc⟩ := hdvd
  have hS : 0 < q * 2 ^ e := by positivity
  have hpc : p ≤ (q * 2 ^ e) * c := by
    calc p ≤ y * q := h
      _ = (q * 2 ^ e) * c := by rw [hc]; ring
  have hm : p / (q * 2 ^ e) ≤ c := Nat.div_le_of_le_mul hpc
  have hdm : (q * 2 ^ e) * (p / (q * 2 ^ e)) + p % (q * 2 ^ e) = p := Nat.div_add_mod p _
  generalize q * 2 ^ e = S at *
  generalize hM : p / S = m at *
  generalize hR : p % S = r at *
  have hup : ¬ (2 * r < S) → m + 1 ≤ c := by
    intro hnr
    by_contra hcon
    have hmc : m = c := by omega
    rw [hmc] at hdm
    have : r = 0 := by omega
    omega
  rw [hc]
  have hfin : ∀ m' : Nat, m' ≤ c → m' * 2 ^ e ≤ 2 ^ e * c := by
    intro m' hm'
    calc m' * 2 ^ e ≤ c * 2 ^ e := Nat.mul_le_mul_right _ hm'
      _ = 2 ^ e * c := Nat.mul_comm _ _
  split_ifs with h1 h2 h3
  · exact hfin m hm
  · exact hfin (m + 1) (hup h1)
  · exact hfin m hm
  · exact hfin (m + 1) (hup h1)

/-- Rounding `p / q` stays at or above every representable value below `p / q`. -/
theorem le_roundNat_of_le (p q y : Nat) (hq : 0 < q) (hy : Rep y) (h : y * q ≤ p) :
    y ≤ roundNat p q := by
  have hf : y ≤ p / q := (Nat.le_div_iff_mul_le hq).2 h
  rw [roundNat_eq]
  have hkey : y ≤ p / (q * 2 ^ (ilog2 (p / q) - 52)) * 2 ^ (ilog2 (p / q) - 52) := by
    by_cases hd : 2 ^ (ilog2 (p / q) - 52) ∣ y
    · obtain ⟨c, hc⟩ := hd
      have hS : 0 < q * 2 ^ (ilog2 (p / q) - 52) := by positivity
      have hcm : c ≤ p / (q * 2 ^ (ilog2 (p / q) - 52)) := by
        apply (Nat.le_div_iff_mul_le hS).2
        calc c * (q * 2 ^ (ilog2 (p / q) - 52)) = y * q := by rw [hc]; ring
          _ ≤ p := h
      calc y = c * 2 ^ (ilog2 (p / q) - 52) := by rw [hc]; ring
        _ ≤ _ := Nat.mul_le_mul_right _ hcm
    · have hypos : 0 < y := by
        rcases Nat.eq_zero_or_pos y with h0 | h0
        · rw [h0] at hd
          exact absurd (dvd_zero _) hd
        · exact h0
      have hlt : ilog2 y - 52 < ilog2 (p / q) - 52 := by
        by_contra hcon
        have hge : ilog2 (p / q) - 52 ≤ ilog2 y - 52 := by omega
        exact hd (Dvd.dvd.trans (pow_dvd_pow 2 hge) hy)
      have hfpos : 0 < p / q := lt_of_lt_of_le hypos hf
      have hspec := (ilog2_spec (p / q) hfpos).1
      have hyspec := (ilog2_spec y hypos).2
      have hLe : ilog2 (p / q) = 52 + (ilog2 (p / q) - 52) := by omega
      have hylt : y < 2 ^ ilog2 (p / q) :=
        lt_of_lt_of_le hyspec (Nat.pow_le_pow_right (by norm_num) (by omega))
      generalize ilog2 (p / q) - 52 = e at *
      rw [hLe, pow_add] at hspec hylt
      have hS : 0 < q * 2 ^ e := by positivity
      have h52 : 2 ^ 52 ≤ p / (q * 2 ^ e) := by
        apply (Nat.le_div_iff_mul_le hS).2
        calc 2 ^ 52 * (q * 2 ^ e) = q * (2 ^ 52 * 2 ^ e) := by ring
          _ ≤ q * (p / q) := Nat.mul_le_mul_left q hspec
          _ ≤ p := Nat.mul_div_le p q
      calc y ≤ 2 ^ 52 * 2 ^ e := le_of_lt hylt
        _ ≤ p / (q * 2 ^ e) * 2 ^ e := Nat.mul_le_mul_right _ h52
  generalize ilog2 (p / q) - 52 = e at *
  generalize p / (q * 2 ^ e) = m at *
  have hstep : m * 2 ^ e ≤ (m + 1) * 2 ^ e := Nat.mul_le_mul_right _ (Nat.le_succ m)
  split_ifs
  · exact hkey
  · exact le_trans hkey hstep
  · exact hkey
  · exact le_trans hkey hstep

/-- A representable value is its own rounding. -/
theorem roundNat_mul_self (n q : Nat) (hq : 0 < q) (hn : Rep n) : roundNat (n * q) q = n :=
  le_antisymm (roundNat_le_of_le _ _ _ hq hn (le_refl _))
    (le_roundNat_of_le _ _ _ hq hn (le_refl _))

end F64

/-! ### Bounds on the rounded operations -/

namespace F64

theorem roundNat_zero (q : Nat) : roundNat 0 q = 0 := by
  rw [roundNat_eq]
  simp

theorem roundInt_neg (p : Int) (q : Nat) : roundInt (-p) q = -roundInt p q := by
  unfold roundInt
  rcases lt_trichotomy p 0 with h | h | h
  · have h1 : ¬ (-p < 0) := by omega
    simp [h, h1]
  · subst h
    simp [roundNat_zero]
  · have h1 : -p < 0 := by omega
    have h2 : ¬ (p < 0) := by omega
    simp [h1, h2]

/-- Signed rounding stays at or below every representable value above `p / q`. -/
theorem roundInt_le (p : Int) (q : Nat) (y : Int) (hq : 0 < q) (hy : Rep y.natAbs)
    (h : p ≤ y * q) : roundInt p q ≤ y := by
  have hqi : (0 : Int) < (q : Int) := by exact_mod_cast hq
  unfold roundInt
  by_cases hp : p < 0
  · rw [if_pos hp]
    by_cases hy0 : 0 ≤ y
    · have := Int.natCast_nonneg (roundNat p.natAbs q)
      omega
    · have hyneg : y < 0 := by omega
      have hpa : (p.natAbs : Int) = -p := Int.ofNat_natAbs_of_nonpos (le_of_lt hp)
      have hya : (y.natAbs : Int) = -y := Int.ofNat_natAbs_of_nonpos (le_of_lt hyneg)
      have hnat : y.natAbs * q ≤ p.natAbs := by
        have : ((y.natAbs * q : Nat) : Int) ≤ (p.natAbs : Int) := by
          rw [Nat.cast_mul, hpa, hya]
          have : -y * (q : Int) = -(y * q) := by ring
          omega
        exact_mod_cast this
      have hle := le_roundNat_of_le _ _ _ hq hy hnat
      have : (y.natAbs : Int) ≤ (roundNat p.natAbs q : Int) := by exact_mod_cast hle
      omega
  · rw [if_neg hp]
    have hp0 : 0 ≤ p := by omega
    have hy0 : 0 ≤ y := by
      by_contra hcon
      have hyneg : y < 0 := by omega
      have : y * (q : Int) < 0 := mul_neg_of_neg_of_pos hyneg hqi
      omega
    lift p to Nat using hp0
    lift y to Nat using hy0
    simp only [Int.natAbs_ofNat] at hy ⊢
    have hnat : p ≤ y * q := by exact_mod_cast h
    exact_mod_cast roundNat_le_of_le _ _ _ hq hy hnat

/-- Signed rounding stays at or above every representable value below `p / q`. -/
theorem le_roundInt (p : Int) (q : Nat) (y : Int) (hq : 0 < q) (hy : Rep y.natAbs)
    (h : y * q ≤ p) : y ≤ roundInt p q := by
  have hy' : Rep (-y).natAbs := by rwa [Int.natAbs_neg]
  have h' : -p ≤ -y * q := by
    have : -y * (q : Int) = -(y * q) := by ring
    omega
  have := roundInt_le (-p) q (-y) hq hy' h'
  rw [roundInt_neg] at this
  omega

theorem rep_mul_one (m : Nat) (hm : m < 2 ^ 53) : Rep (m * one) := by
  rw [one_eq]
  exact rep_mul_two_pow m 1074 hm

/-- `1.0` is 256 times a quantum `h` on which every 53-bit multiple is representable. -/
theorem one_eq_256_mul :
    ∃ h : Nat, one = 256 * h ∧ 0 < h ∧ ∀ m : Nat, m < 2 ^ 53 → Rep (m * h) := by
  refine ⟨2 ^ 1066, ?_, by positivity, fun m hm => rep_mul_two_pow m 1066 hm⟩
  rw [one_eq, show (1074 : Nat) = 8 + 1066 from rfl, pow_add]
  norm_num

theorem add_units_le (a b : F64) (y : Int) (hy : Rep y.natAbs) (h : a.units + b.units ≤ y) :
    (add a b).units ≤ y :=
  roundInt_le _ 1 y (by norm_num) hy (by simpa using h)

theorem le_add_units (a b : F64) (y : Int) (hy : Rep y.natAbs) (h : y ≤ a.units + b.units) :
    y ≤ (add a b).units :=
  le_roundInt _ 1 y (by norm_num) hy (by simpa using h)

theorem sub_units_le (a b : F64) (y : Int) (hy : Rep y.natAbs) (h : a.units - b.units ≤ y) :
    (sub a b).units ≤ y :=
  roundInt_le _ 1 y (by norm_num) hy (by simpa using h)

theorem le_sub_units (a b : F64) (y : Int) (hy : Rep y.natAbs) (h : y ≤ a.units - b.units) :
    y ≤ (sub a b).units :=
  le_roundInt _ 1 y (by norm_num) hy (by simpa using h)

theorem mul_units_le (a b : F64) (y : Int) (hy : Rep y.natAbs)
    (h : a.units * b.units ≤ y * (one : Int)) : (mul a b).units ≤ y :=
  roundInt_le _ one y one_pos hy h

theorem le_mul_units (a b : F64) (y : Int) (hy : Rep y.natAbs)
    (h : y * (one : Int) ≤ a.units * b.units) : y ≤ (mul a b).units :=
  le_roundInt _ one y one_pos hy h

theorem div_units_le (a b : F64) (y : Int) (hb : 0 < b.units) (hy : Rep y.natAbs)
    (h : a.units * (one : Int) ≤ y * b.units) : (div a b).units ≤ y := by
  unfold div
  have hq : 0 < b.units.natAbs := Int.natAbs_pos.2 (by omega)
  apply roundInt_le _ _ y hq hy
  rw [Int.sign_eq_one_of_pos hb, mul_one, Int.natAbs_of_nonneg (le_of_lt hb)]
  exact h

theorem le_div_units (a b : F64) (y : Int) (hb : 0 < b.units) (hy : Rep y.natAbs)
    (h : y * b.units ≤ a.units * (one : Int)) : y ≤ (div a b).units := by
  unfold div
  have hq : 0 < b.units.natAbs := Int.natAbs_pos.2 (by omega)
  apply le_roundInt _ _ y hq hy
  rw [Int.sign_eq_one_of_pos hb, mul_one, Int.natAbs_of_nonneg (le_of_lt hb)]
  exact h

/-- Integers below `2^53` in absolute value convert without rounding. -/
theorem ofInt_units (n : Int) (hn : n.natAbs < 2 ^ 53) : (ofInt n).units = n * (one : Int) := by
  have hy : Rep (n * (one : Int)).natAbs := by
    rw [Int.natAbs_mul, Int.natAbs_ofNat]
    exact rep_mul_one _ hn
  unfold ofInt
  apply le_antisymm
  · exact roundInt_le _ 1 _ (by norm_num) hy (by simp)
  · exact le_roundInt _ 1 _ (by norm_num) hy (by simp)

end F64

/-! ### Windows filled from at most one sample -/

theorem F64.ofInt_two_units : (F64.ofInt 2).units = 2 * (F64.one : Int) :=
  F64.ofInt_units 2 (by norm_num)

/-- The running average `(c + c) / 2` stays at or below a bound `y` that `c` respects. -/
theorem avg_self_le (c : F64) (y : Int) (hy : F64.Rep y.natAbs) (hy2 : F64.Rep (2 * y).natAbs)
    (h : c.units ≤ y) : (F64.div (F64.add c c) (F64.ofInt 2)).units ≤ y := by
  have hs : (F64.add c c).units ≤ 2 * y := F64.add_units_le c c _ hy2 (by omega)
  have ho : (0 : Int) < (F64.one : Int) := by exact_mod_cast F64.one_pos
  apply F64.div_units_le _ _ y (by rw [F64.ofInt_two_units]; omega) hy
  rw [F64.ofInt_two_units]
  have : (F64.add c c).units * (F64.one : Int) ≤ 2 * y * (F64.one : Int) :=
    mul_le_mul_of_nonneg_right hs (le_of_lt ho)
  calc (F64.add c c).units * (F64.one : Int) ≤ 2 * y * (F64.one : Int) := this
    _ = y * (2 * (F64.one : Int)) := by ring

/-- The running average `(c + c) / 2` stays at or above a bound `y` that `c` respects. -/
theorem le_avg_self (c : F64) (y : Int) (hy : F64.Rep y.natAbs) (hy2 : F64.Rep (2 * y).natAbs)
    (h : y ≤ c.units) : y ≤ (F64.div (F64.add c c) (F64.ofInt 2)).units := by
  have hs : 2 * y ≤ (F64.add c c).units := F64.le_add_units c c _ hy2 (by omega)
  have ho : (0 : Int) < (F64.one : Int) := by exact_mod_cast F64.one_pos
  apply F64.le_div_units _ _ y (by rw [F64.ofInt_two_units]; omega) hy
  rw [F64.ofInt_two_units]
  have : 2 * y * (F64.one : Int) ≤ (F64.add c c).units * (F64.one : Int) :=
    mul_le_mul_of_nonneg_right hs (le_of_lt ho)
  calc y * (2 * (F64.one : Int)) = 2 * y * (F64.one : Int) := by ring
    _ ≤ (F64.add c c).units * (F64.one : Int) := this

/-- The state of the fill loop after `k` rounds, for a slice of at most one sample: `k`
samples, each with the property `P` that the first sample has and that the running average
preserves. -/
theorem fill_invariant (pv : List F64) (size : Nat) (P : F64 → Prop) (hlen : pv.length ≤ 1)
    (hP0 : P (pv.getD 0 F64.zero))
    (hPavg : ∀ c : F64, P c → P (F64.div (F64.add c c) (F64.ofInt 2))) :
    ∀ k : Nat, k ≤ size →
      ((List.range k).foldl (fillStep pv) (F64.zero, createRollingWindow size)).2.capacity
          = size ∧
        ((List.range k).foldl (fillStep pv) (F64.zero, createRollingWindow size)).2.samples.length
          = k ∧
        (∀ s ∈ ((List.range k).foldl (fillStep pv)
          (F64.zero, createRollingWindow size)).2.samples, P s) ∧
        (0 < k → P ((List.range k).foldl (fillStep pv) (F64.zero, createRollingWindow size)).1) := by
  intro k
  induction k with
  | zero =>
    intro _
    simp [createRollingWindow]
  | succ k ih =>
    intro hk
    obtain ⟨hcap, hl, hall, hcur⟩ := ih (by omega)
    rw [List.range_succ, List.foldl_append, List.foldl_cons, List.foldl_nil]
    generalize hst : (List.range k).foldl (fillStep pv) (F64.zero, createRollingWindow size)
      = st at *
    have hrpm : P (if k < pv.length then pv.getD k F64.zero else st.1) := by
      rcases Nat.eq_zero_or_pos k with h0 | h0
      · subst h0
        split_ifs with hc
        · exact hP0
        · have hnil : pv = [] := List.length_eq_zero.1 (by omega)
          have hst0 : st.1 = F64.zero := by
            rw [← hst]
            rfl
          rw [hst0]
          rw [hnil] at hP0
          exact hP0
      · have hc : ¬ (k < pv.length) := by omega
        rw [if_neg hc]
        exact hcur h0
    have happ : (st.2.Append (if k < pv.length then pv.getD k F64.zero else st.1)).samples
        = st.2.samples ++ [if k < pv.length then pv.getD k F64.zero else st.1] := by
      unfold RollingWindow.Append
      have hlt : st.2.samples.length < st.2.capacity := by omega
      rw [if_pos hlt]
    have hcap' : (st.2.Append (if k < pv.length then pv.getD k F64.zero else st.1)).capacity
        = size := by
      unfold RollingWindow.Append
      split_ifs <;> exact hcap
    refine ⟨hcap', ?_, ?_, ?_⟩
    · show (st.2.Append _).samples.length = k + 1
      rw [happ, List.length_append, hl]
      rfl
    · show ∀ s ∈ (st.2.Append _).samples, P s
      rw [happ]
      intro s hs
      rcases List.mem_append.1 hs with h | h
      · exact hall s h
      · rw [List.mem_singleton.1 h]
        exact hrpm
    · intro _
      show P (if k = 0 then (if k < pv.length then pv.getD k F64.zero else st.1)
        else F64.div (F64.add st.1 (if k < pv.length then pv.getD k F64.zero else st.1))
          (F64.ofInt 2))
      rcases Nat.eq_zero_or_pos k with h0 | h0
      · rw [if_pos h0]
        exact hrpm
      · have hk0 : ¬ k = 0 := by omega
        have hc : ¬ (k < pv.length) := by omega
        rw [if_neg hk0, if_neg hc]
        exact hPavg _ (hcur h0)

/-- A window filled from at most one sample holds `size` samples with the property `P`. -/
theorem fillRollingWindow_samples (pv : List F64) (size : Nat) (P : F64 → Prop)
    (hlen : pv.length ≤ 1) (hP0 : P (pv.getD 0 F64.zero))
    (hPavg : ∀ c : F64, P c → P (F64.div (F64.add c c) (F64.ofInt 2))) :
    (fillRollingWindow size pv).samples.length = size ∧
      ∀ s ∈ (fillRollingWindow size pv).samples, P s := by
  obtain ⟨_, h2, h3, _⟩ := fill_invariant pv size P hlen hP0 hPavg size (le_refl _)
  exact ⟨h2, h3⟩

/-- A running sum of samples at or below `y` stays at or below the matching multiple. -/
theorem sum_units_le (y : Int) :
    ∀ (l : List F64) (acc : F64) (j : Nat), (∀ s ∈ l, s.units ≤ y) → acc.units ≤ j * y →
      (∀ k : Nat, k ≤ j + l.length → F64.Rep ((k : Int) * y).natAbs) →
      (l.foldl F64.add acc).units ≤ ((j + l.length : Nat) : Int) * y := by
  intro l
  induction l with
  | nil =>
    intro acc j _ hacc _
    simpa using hacc
  | cons s t ih =>
    intro acc j hall hacc hrep
    rw [List.foldl_cons]
    have hs := hall s (List.mem_cons_self _ _)
    have hstep : (F64.add acc s).units ≤ ((j + 1 : Nat) : Int) * y := by
      apply F64.add_units_le _ _ _ (hrep (j + 1) (by simp))
      push_cast
      have : ((j : Int) + 1) * y = j * y + y := by ring
      omega
    have := ih (F64.add acc s) (j + 1) (fun x hx => hall x (List.mem_cons_of_mem _ hx)) hstep
      (fun k hk => hrep k (by simp only [List.length_cons]; omega))
    have hcount : j + 1 + t.length = j + (s :: t).length := by
      simp only [List.length_cons]
      omega
    rw [hcount] at this
    exact this

/-- A running sum of samples at or above `y` stays at or above the matching multiple. -/
theorem le_sum_units (y : Int) :
    ∀ (l : List F64) (acc : F64) (j : Nat), (∀ s ∈ l, y ≤ s.units) → j * y ≤ acc.units →
      (∀ k : Nat, k ≤ j + l.length → F64.Rep ((k : Int) * y).natAbs) →
      ((j + l.length : Nat) : Int) * y ≤ (l.foldl F64.add acc).units := by
  intro l
  induction l with
  | nil =>
    intro acc j _ hacc _
    simpa using hacc
  | cons s t ih =>
    intro acc j hall hacc hrep
    rw [List.foldl_cons]
    have hs := hall s (List.mem_cons_self _ _)
    have hstep : ((j + 1 : Nat) : Int) * y ≤ (F64.add acc s).units := by
      apply F64.le_add_units _ _ _ (hrep (j + 1) (by simp))
      push_cast
      have : ((j : Int) + 1) * y = j * y + y := by ring
      omega
    have := ih (F64.add acc s) (j + 1) (fun x hx => hall x (List.mem_cons_of_mem _ hx)) hstep
      (fun k hk => hrep k (by simp only [List.length_cons]; omega))
    have hcount : j + 1 + t.length = j + (s :: t).length := by
      simp only [List.length_cons]
      omega
    rw [hcount] at this
    exact this

/-- The average of a non-empty list of samples at or below `y` is at or below `y`. -/
theorem Avg_units_le (l : List F64) (y : Int) (hne : 0 < l.length) (hlen : l.length < 2 ^ 53)
    (hall : ∀ s ∈ l, s.units ≤ y)
    (hrep : ∀ k : Nat, k ≤ l.length → F64.Rep ((k : Int) * y).natAbs) :
    (Avg l).units ≤ y := by
  have hsum := sum_units_le y l F64.zero 0 hall (by simp [F64.zero])
    (fun k hk => hrep k (by omega))
  have hN : (F64.ofInt (l.length : Int)).units = (l.length : Int) * (F64.one : Int) :=
    F64.ofInt_units _ (by simpa using hlen)
  have ho : (0 : Int) < (F64.one : Int) := by exact_mod_cast F64.one_pos
  have hlpos : (0 : Int) < (l.length : Int) := by exact_mod_cast hne
  unfold Avg
  apply F64.div_units_le _ _ y (by rw [hN]; positivity)
  · have := hrep 1 (by omega)
    simpa using this
  · rw [hN]
    simp only [Nat.zero_add] at hsum
    calc (l.foldl F64.add F64.zero).units * (F64.one : Int)
        ≤ ((l.length : Int) * y) * (F64.one : Int) :=
          mul_le_mul_of_nonneg_right hsum (le_of_lt ho)
      _ = y * ((l.length : Int) * (F64.one : Int)) := by ring

/-- The average of a non-empty list of samples at or above `y` is at or above `y`. -/
theorem le_Avg_units (l : List F64) (y : Int) (hne : 0 < l.length) (hlen : l.length < 2 ^ 53)
    (hall : ∀ s ∈ l, y ≤ s.units)
    (hrep : ∀ k : Nat, k ≤ l.length → F64.Rep ((k : Int) * y).natAbs) :
    y ≤ (Avg l).units := by
  have hsum := le_sum_units y l F64.zero 0 hall (by simp [F64.zero])
    (fun k hk => hrep k (by omega))
  have hN : (F64.ofInt (l.length : Int)).units = (l.length : Int) * (F64.one : Int) :=
    F64.ofInt_units _ (by simpa using hlen)
  have ho : (0 : Int) < (F64.one : Int) := by exact_mod_cast F64.one_pos
  have hlpos : (0 : Int) < (l.length : Int) := by exact_mod_cast hne
  unfold Avg
  apply F64.le_div_units _ _ y (by rw [hN]; positivity)
  · have := hrep 1 (by omega)
    simpa using this
  · rw [hN]
    simp only [Nat.zero_add] at hsum
    calc y * ((l.length : Int) * (F64.one : Int)) = ((l.length : Int) * y) * (F64.one : Int) := by
          ring
      _ ≤ (l.foldl F64.add F64.zero).units * (F64.one : Int) :=
          mul_le_mul_of_nonneg_right hsum (le_of_lt ho)

/-! ### Reading the attached map -/

theorem lookup_filter_ne {α : Type} (k k' : Int) (hne : k' ≠ k) :
    ∀ m : List (Int × α), List.lookup k' (m.filter (fun e => e.1 != k)) = List.lookup k' m := by
  intro m
  induction m with
  | nil => rfl
  | cons e t ih =>
    obtain ⟨ek, ev⟩ := e
    by_cases hek : ek = k
    · subst hek
      have h1 : ((ek, ev) :: t).filter (fun e => e.1 != ek) = t.filter (fun e => e.1 != ek) := by
        simp
      have h2 : (k' == ek) = false := by simpa using hne
      rw [h1, ih, List.lookup_cons, h2]
    · have h1 : ((ek, ev) :: t).filter (fun e => e.1 != k)
          = (ek, ev) :: t.filter (fun e => e.1 != k) := by
        simp [hek]
      rw [h1, List.lookup_cons, List.lookup_cons, ih]

/-- Reading a Go map after `m[k] = v`. -/
theorem get_set {α : Type} (m : IntMap α) (k k' : Int) (v : α) :
    (m.set k v).get k' = if k' = k then some v else m.get k' := by
  unfold IntMap.set IntMap.get
  by_cases h : k' = k
  · subst h
    simp [List.lookup_cons]
  · have h2 : (k' == k) = false := by simpa using h
    rw [if_neg h, List.lookup_cons, h2]
    exact lookup_filter_ne k k' h m

/-- A recorded key is in the key set. -/
theorem mem_keys_of_get {α : Type} (k : Int) (v : α) :
    ∀ m : IntMap α, m.get k = some v → k ∈ m.keys := by
  intro m
  induction m with
  | nil =>
    intro h
    simp [IntMap.get] at h
  | cons e t ih =>
    obtain ⟨ek, ev⟩ := e
    intro h
    unfold IntMap.get at h
    rw [List.lookup_cons] at h
    by_cases hek : k = ek
    · subst hek
      simp [IntMap.keys]
    · have h2 : (k == ek) = false := by simpa using hek
      rw [h2] at h
      have := ih h
      simp only [IntMap.keys, List.map_cons, List.mem_cons]
      right
      exact this

/-- The window stored under key `i` by the first `n > i` rounds of the attach loop is the
one filled from the samples of round `i`. -/
theorem attached_get (cd : IntMap (List F64)) (size : Nat) (init : AttachState) :
    ∀ n : Nat, ∀ i : Nat, i < n →
      ((List.range n).foldl (attachStep cd size) init).data.get (i : Int)
        = some (fillRollingWindow size
            (pointValuesAt cd ((List.range i).foldl (attachStep cd size) init) i).2) := by
  intro n
  induction n with
  | zero =>
    intro i hi
    omega
  | succ n ih =>
    intro i hi
    rw [List.range_succ, List.foldl_append, List.foldl_cons, List.foldl_nil, attachStep_data,
      get_set]
    by_cases h : i = n
    · subst h
      rw [if_pos rfl]
    · have hne : ¬ ((i : Int) = (n : Int)) := by omega
      rw [if_neg hne]
      exact ih i (by omega)

/-! ### The search for the next recorded key -/

theorem foldl_next_none (cd : IntMap (List F64)) :
    ∀ (l : List Nat) (st : Int × F64), (∀ j ∈ l, cd.get (j : Int) = none) →
      l.foldl
        (fun (st : Int × F64) (j : Nat) =>
          match cd.get j with
          | some pointValues => ((j : Int), Avg pointValues)
          | none => st) st = st := by
  intro l
  induction l with
  | nil =>
    intro st _
    rfl
  | cons j t ih =>
    intro st h
    rw [List.foldl_cons]
    have hj := h j (List.mem_cons_self _ _)
    simp only [hj]
    exact ih st (fun x hx => h x (List.mem_cons_of_mem _ hx))

/-- From a key at or below the highest recorded key `K`, the inner loop ends on `K`. -/
theorem findNextValue_highest (cd : IntMap (List F64)) (K i : Nat) (v : List F64) (x : F64)
    (hi : i ≤ K) (hK : K ≤ 255) (hv : cd.get (K : Int) = some v)
    (hhigh : ∀ j : Nat, K < j → cd.get (j : Int) = none) :
    findNextValue cd i x = ((K : Int), Avg v) := by
  unfold findNextValue
  have hsplit : List.range' i (256 - i)
      = List.range' i (K - i) ++ K :: List.range' (K + 1) (255 - K) := by
    have h1 := List.range'_append i (K - i) (256 - K) 1
    have h2 : i + 1 * (K - i) = K := by omega
    have h3 : 256 - K + (K - i) = 256 - i := by omega
    rw [h2, h3] at h1
    rw [← h1]
    have h4 : 256 - K = (255 - K) + 1 := by omega
    rw [h4, List.range'_succ]
  rw [hsplit, List.foldl_append, List.foldl_cons]
  simp only [hv]
  apply foldl_next_none
  intro j hj
  have := List.mem_range'.1 hj
  apply hhigh
  omega

/-- Above the highest recorded key the inner loop finds nothing. -/
theorem findNextValue_above (cd : IntMap (List F64)) (K i : Nat) (x : F64)
    (hi : K < i) (hhigh : ∀ j : Nat, K < j → cd.get (j : Int) = none) :
    findNextValue cd i x = ((i : Int), x) := by
  unfold findNextValue
  apply foldl_next_none
  intro j hj
  have := List.mem_range'.1 hj
  apply hhigh
  omega

/-! ### Truncation of an average -/

/-- A value below `b` truncates to at most `b - 1`, for `b ≥ 1`. -/
theorem toInt_le_pred (a : F64) (b : Int) (hb : 1 ≤ b) (h : a.units < b * (F64.one : Int)) :
    F64.toInt a ≤ b - 1 := by
  have ho : (0 : Int) < (F64.one : Int) := by exact_mod_cast F64.one_pos
  unfold F64.toInt
  by_cases hneg : 0 ≤ a.units
  · rw [Int.tdiv_eq_ediv hneg (le_of_lt ho)]
    have := Int.ediv_lt_of_lt_mul ho h
    omega
  · have h1 : a.units = -(-a.units) := by ring
    rw [h1, Int.neg_tdiv]
    have := Int.tdiv_nonneg (show (0 : Int) ≤ -a.units by omega) (le_of_lt ho)
    omega

/-- An integer value truncates to itself. -/
theorem toInt_of_units (a : F64) (b : Int) (h : a.units = b * (F64.one : Int)) :
    F64.toInt a = b := by
  have ho : (0 : Int) < (F64.one : Int) := by exact_mod_cast F64.one_pos
  unfold F64.toInt
  rw [h]
  exact Int.mul_tdiv_cancel b (ne_of_gt ho)

/-! ### The samples of one round of the attach loop -/

theorem F64.eq_of_units (a b : F64) (h : a.units = b.units) : a = b := by
  cases a
  cases b
  simp only at h
  rw [h]

theorem F64.rep_int_mul (h : Nat) (hrep : ∀ m : Nat, m < 2 ^ 53 → F64.Rep (m * h)) (m : Int)
    (hm : m.natAbs < 2 ^ 53) : F64.Rep (m * (h : Int)).natAbs := by
  rw [Int.natAbs_mul, Int.natAbs_ofNat]
  exact hrep _ hm

theorem F64.rep_int_mul_one (m : Int) (hm : m.natAbs < 2 ^ 53) :
    F64.Rep (m * (F64.one : Int)).natAbs := by
  rw [Int.natAbs_mul, Int.natAbs_ofNat]
  exact F64.rep_mul_one _ hm

/-- The average of a single integer sample is the sample. -/
theorem Avg_singleton (n : Int) (hn : n.natAbs < 2 ^ 53) : Avg [F64.ofInt n] = F64.ofInt n := by
  have hu := F64.ofInt_units n hn
  have hrep : ∀ k : Nat, k ≤ [F64.ofInt n].length →
      F64.Rep ((k : Int) * (n * (F64.one : Int))).natAbs := by
    intro k hk
    have hk1 : k = 0 ∨ k = 1 := by
      simp only [List.length_singleton] at hk
      omega
    rcases hk1 with h | h
    · subst h
      simpa using F64.rep_zero
    · subst h
      simpa using F64.rep_int_mul_one n hn
  apply F64.eq_of_units
  rw [hu]
  apply le_antisymm
  · apply Avg_units_le _ _ (by simp) (by simp) _ hrep
    intro s hs
    rw [List.mem_singleton.1 hs, hu]
  · apply le_Avg_units _ _ (by simp) (by simp) _ hrep
    intro s hs
    rw [List.mem_singleton.1 hs, hu]

/-- Round `i` of the attach loop on a key recorded with samples. -/
theorem pointValuesAt_recorded (cd : IntMap (List F64)) (st : AttachState) (i : Nat)
    (v : List F64) (hv : cd.get (i : Int) = some v) (hlen : 0 < v.length) :
    (pointValuesAt cd st i).1.lastValueIdx = (i : Int) ∧
      (pointValuesAt cd st i).1.lastValueAvg = Avg v ∧ (pointValuesAt cd st i).2 = v := by
  unfold pointValuesAt
  simp only [hv, Option.getD_some, Option.isSome_some, Bool.true_and, gt_iff_lt, hlen,
    decide_True, if_true]
  exact ⟨trivial, trivial, trivial⟩

/-- Round `i` of the attach loop on a key that is not recorded. -/
theorem pointValuesAt_unrecorded (cd : IntMap (List F64)) (st : AttachState) (i : Nat)
    (hv : cd.get (i : Int) = none) :
    (pointValuesAt cd st i).1.lastValueIdx = st.lastValueIdx ∧
      (pointValuesAt cd st i).1.lastValueAvg = st.lastValueAvg ∧
      (pointValuesAt cd st i).2 =
        if (findNextValue cd i st.nextValueAvg).1 = (i : Int) then []
        else [F64.add st.lastValueAvg
          (F64.mul
            (Ratio (F64.ofInt i) (F64.ofInt st.lastValueIdx)
              (F64.ofInt (findNextValue cd i st.nextValueAvg).1))
            (F64.sub (findNextValue cd i st.nextValueAvg).2 st.lastValueAvg))] := by
  unfold pointValuesAt
  simp only [hv, Option.getD_none, Option.isSome_none, Bool.false_and, if_false,
    Bool.false_eq_true]
  by_cases hc : (findNextValue cd i st.nextValueAvg).1 = (i : Int)
  · simp only [hc, beq_self_eq_true, if_true]
    exact ⟨trivial, trivial, trivial⟩
  · have hb : ((findNextValue cd i st.nextValueAvg).1 == (i : Int)) = false := by
      simpa using hc
    simp only [hb, hc, if_false, Bool.false_eq_true]
    exact ⟨trivial, trivial, trivial⟩

/-- The seed interpolated for an unrecorded key `i` between the last recorded key `l ≤ i`
(average `a`) and the highest recorded key `K > i` (average `b > a`) stays at or below
`b - 1/256`. -/
theorem interpolation_units_le (l i K : Nat) (a b : Int) (B h : Nat)
    (hli : l ≤ i) (hiK : i < K) (hK : K ≤ 255) (hab : a < b) (haB : -(B : Int) ≤ a)
    (hbB : b ≤ B) (hB : 512 * B < 2 ^ 53) (hone : F64.one = 256 * h)
    (hrep : ∀ m : Nat, m < 2 ^ 53 → F64.Rep (m * h)) :
    (F64.add (F64.ofInt a)
      (F64.mul (Ratio (F64.ofInt (i : Int)) (F64.ofInt (l : Int)) (F64.ofInt (K : Int)))
        (F64.sub (F64.ofInt b) (F64.ofInt a)))).units ≤ (256 * b - 1) * (h : Int) := by
  unfold Ratio
  have hO : ((F64.one : Nat) : Int) = 256 * (h : Int) := by
    rw [hone]
    push_cast
    ring
  have hH : (0 : Int) ≤ (h : Int) := Int.ofNat_nonneg h
  have ho : (0 : Int) < (F64.one : Int) := by exact_mod_cast F64.one_pos
  have hB53 : (2 : Nat) ^ 53 = 9007199254740992 := by norm_num
  have ua : (F64.ofInt a).units = a * (F64.one : Int) := F64.ofInt_units a (by omega)
  have ub : (F64.ofInt b).units = b * (F64.one : Int) := F64.ofInt_units b (by omega)
  have ui : (F64.ofInt (i : Int)).units = (i : Int) * (F64.one : Int) :=
    F64.ofInt_units _ (by omega)
  have ul : (F64.ofInt (l : Int)).units = (l : Int) * (F64.one : Int) :=
    F64.ofInt_units _ (by omega)
  have uK : (F64.ofInt (K : Int)).units = (K : Int) * (F64.one : Int) :=
    F64.ofInt_units _ (by omega)
  -- numerator and denominator of the ratio
  have hnum_le : (F64.sub (F64.ofInt (i : Int)) (F64.ofInt (l : Int))).units
      ≤ ((i : Int) - (l : Int)) * (F64.one : Int) := by
    apply F64.sub_units_le _ _ _ (F64.rep_int_mul_one _ (by omega))
    rw [ui, ul]
    linarith
  have hnum_ge : 0 ≤ (F64.sub (F64.ofInt (i : Int)) (F64.ofInt (l : Int))).units := by
    apply F64.le_sub_units _ _ 0 (by simpa using F64.rep_zero)
    rw [ui, ul]
    have : (l : Int) * (F64.one : Int) ≤ (i : Int) * (F64.one : Int) :=
      mul_le_mul_of_nonneg_right (by exact_mod_cast hli) (le_of_lt ho)
    linarith
  have hden : ((K : Int) - (l : Int)) * (F64.one : Int)
      ≤ (F64.sub (F64.ofInt (K : Int)) (F64.ofInt (l : Int))).units := by
    apply F64.le_sub_units _ _ _ (F64.rep_int_mul_one _ (by omega))
    rw [uK, ul]
    linarith
  have hden_pos : 0 < (F64.sub (F64.ofInt (K : Int)) (F64.ofInt (l : Int))).units := by
    have : 0 < ((K : Int) - (l : Int)) * (F64.one : Int) :=
      mul_pos (by omega) ho
    omega
  generalize (F64.sub (F64.ofInt (i : Int)) (F64.ofInt (l : Int))) = num at *
  generalize (F64.sub (F64.ofInt (K : Int)) (F64.ofInt (l : Int))) = den at *
  -- the ratio
  have hratio_ge : 0 ≤ (F64.div num den).units := by
    apply F64.le_div_units _ _ 0 hden_pos (by simpa using F64.rep_zero)
    have := mul_nonneg hnum_ge (le_of_lt ho)
    linarith
  have hratio_le : (F64.div num den).units ≤ 255 * (h : Int) := by
    apply F64.div_units_le _ _ _ hden_pos (F64.rep_int_mul h hrep 255 (by norm_num))
    have h1 : num.units * (F64.one : Int)
        ≤ ((i : Int) - (l : Int)) * (F64.one : Int) * (F64.one : Int) :=
      mul_le_mul_of_nonneg_right hnum_le (le_of_lt ho)
    have h2 : 255 * (h : Int) * (((K : Int) - (l : Int)) * (F64.one : Int))
        ≤ 255 * (h : Int) * den.units :=
      mul_le_mul_of_nonneg_left hden (by omega)
    have h3 : (256 * ((i : Int) - (l : Int))) * ((h : Int) * (F64.one : Int))
        ≤ (255 * ((K : Int) - (l : Int))) * ((h : Int) * (F64.one : Int)) :=
      mul_le_mul_of_nonneg_right (by omega) (mul_nonneg hH (le_of_lt ho))
    calc num.units * (F64.one : Int)
        ≤ ((i : Int) - (l : Int)) * (F64.one : Int) * (F64.one : Int) := h1
      _ = (256 * ((i : Int) - (l : Int))) * ((h : Int) * (F64.one : Int)) := by
          rw [hO]
          ring
      _ ≤ (255 * ((K : Int) - (l : Int))) * ((h : Int) * (F64.one : Int)) := h3
      _ = 255 * (h : Int) * (((K : Int) - (l : Int)) * (F64.one : Int)) := by ring
      _ ≤ 255 * (h : Int) * den.units := h2
  generalize (F64.div num den) = ratio at *
  -- the difference of the two averages
  have hdiff : (F64.sub (F64.ofInt b) (F64.ofInt a)).units ≤ (b - a) * (F64.one : Int) := by
    apply F64.sub_units_le _ _ _ (F64.rep_int_mul_one _ (by omega))
    rw [ua, ub]
    linarith
  generalize (F64.sub (F64.ofInt b) (F64.ofInt a)) = diff at *
  have hprod : (F64.mul ratio diff).units ≤ (255 * (b - a)) * (h : Int) := by
    apply F64.mul_units_le _ _ _ (F64.rep_int_mul h hrep _ (by omega))
    have h1 : ratio.units * diff.units ≤ ratio.units * ((b - a) * (F64.one : Int)) :=
      mul_le_mul_of_nonneg_left hdiff hratio_ge
    have h2 : ratio.units * ((b - a) * (F64.one : Int))
        ≤ 255 * (h : Int) * ((b - a) * (F64.one : Int)) :=
      mul_le_mul_of_nonneg_right hratio_le (mul_nonneg (by omega) (le_of_lt ho))
    calc ratio.units * diff.units ≤ ratio.units * ((b - a) * (F64.one : Int)) := h1
      _ ≤ 255 * (h : Int) * ((b - a) * (F64.one : Int)) := h2
      _ = (255 * (b - a)) * (h : Int) * (F64.one : Int) := by ring
  generalize (F64.mul ratio diff) = prod at *
  apply F64.add_units_le _ _ _ (F64.rep_int_mul h hrep _ (by omega))
  rw [ua, hO]
  have h1 : (a + 255 * b) * (h : Int) ≤ (256 * b - 1) * (h : Int) :=
    mul_le_mul_of_nonneg_right (by omega) hH
  calc a * (256 * (h : Int)) + prod.units
      ≤ a * (256 * (h : Int)) + (255 * (b - a)) * (h : Int) := by omega
    _ = (a + 255 * b) * (h : Int) := by ring
    _ ≤ (256 * b - 1) * (h : Int) := h1

/-! ### The integer RPM of a filled window -/

/-- A window filled from at most one sample that lies at or below `b - 1/256` has an
integer average of at most `b - 1`. -/
theorem fill_avgRpm_le (size : Nat) (pv : List F64) (b : Int) (B h : Nat) (hsize : 1 ≤ size)
    (hB : 512 * size * B < 2 ^ 53) (hb1 : 1 ≤ b) (hbB : b ≤ B) (hone : F64.one = 256 * h)
    (hrep : ∀ m : Nat, m < 2 ^ 53 → F64.Rep (m * h)) (hlen : pv.length ≤ 1)
    (h0 : (pv.getD 0 F64.zero).units ≤ (256 * b - 1) * (h : Int)) :
    F64.toInt (getWindowAvg (fillRollingWindow size pv)) ≤ b - 1 := by
  have hO : ((F64.one : Nat) : Int) = 256 * (h : Int) := by
    rw [hone]
    push_cast
    ring
  have ho : (0 : Int) < (F64.one : Int) := by exact_mod_cast F64.one_pos
  have hH : (0 : Int) < (h : Int) := by omega
  obtain ⟨bn, rfl⟩ := Int.eq_ofNat_of_zero_le (show (0 : Int) ≤ b by omega)
  have hbn1 : 1 ≤ bn := by exact_mod_cast hb1
  have hbnB : bn ≤ B := by exact_mod_cast hbB
  have hsB : size * (256 * B) < 2 ^ 53 := by
    have : size * (256 * B) ≤ 512 * size * B := by
      have h1 : size * (256 * B) = 256 * (size * B) := by ring
      have h2 : 512 * size * B = 512 * (size * B) := by ring
      omega
    omega
  have hs53 : size < 2 ^ 53 := by
    have h1 : size * (256 * B) = 256 * (size * B) := by ring
    have h2 : size ≤ size * B := Nat.le_mul_of_pos_right size (by omega)
    omega
  have hk : ∀ k : Nat, k ≤ size →
      F64.Rep ((k : Int) * ((256 * (bn : Int) - 1) * (h : Int))).natAbs := by
    intro k hk
    have hcast : (k : Int) * ((256 * (bn : Int) - 1) * (h : Int))
        = (((k * (256 * bn - 1) : Nat) : Int)) * (h : Int) := by
      have : ((256 * bn - 1 : Nat) : Int) = 256 * (bn : Int) - 1 := by omega
      rw [Nat.cast_mul, this]
      ring
    rw [hcast]
    apply F64.rep_int_mul h hrep
    rw [Int.natAbs_ofNat]
    have : k * (256 * bn - 1) ≤ size * (256 * B) :=
      Nat.mul_le_mul hk (by omega)
    omega
  have hY : F64.Rep ((256 * (bn : Int) - 1) * (h : Int)).natAbs := by
    have := hk 1 hsize
    simpa using this
  have hY2 : F64.Rep (2 * ((256 * (bn : Int) - 1) * (h : Int))).natAbs := by
    have hcast : 2 * ((256 * (bn : Int) - 1) * (h : Int))
        = (2 * (256 * (bn : Int) - 1)) * (h : Int) := by ring
    rw [hcast]
    apply F64.rep_int_mul h hrep
    have : 2 * (256 * B) ≤ 512 * size * B := by
      have h1 : 512 * size * B = 512 * (size * B) := by ring
      have h2 : B ≤ size * B := Nat.le_mul_of_pos_left B hsize
      omega
    omega
  obtain ⟨hl, hall⟩ := fillRollingWindow_samples pv size
    (fun s => s.units ≤ (256 * (bn : Int) - 1) * (h : Int)) hlen h0
    (fun c hc => avg_self_le c _ hY hY2 hc)
  have havg : (getWindowAvg (fillRollingWindow size pv)).units
      ≤ (256 * (bn : Int) - 1) * (h : Int) := by
    unfold getWindowAvg
    apply Avg_units_le _ _ (by omega) (by omega) hall
    intro k hk'
    exact hk k (by omega)
  apply toInt_le_pred _ _ hb1
  rw [hO]
  have : (256 * (bn : Int) - 1) * (h : Int) < (bn : Int) * (256 * (h : Int)) := by
    have h1 : (bn : Int) * (256 * (h : Int)) = (256 * (bn : Int) - 1) * (h : Int) + (h : Int) := by
      ring
    omega
  omega

/-- A window filled from the single integer sample `b` has the integer average `b`. -/
theorem fill_avgRpm_eq (size : Nat) (b : Int) (B : Nat) (hsize : 1 ≤ size)
    (hB : 512 * size * B < 2 ^ 53) (hb1 : 1 ≤ b) (hbB : b ≤ B) :
    F64.toInt (getWindowAvg (fillRollingWindow size [F64.ofInt b])) = b := by
  obtain ⟨bn, rfl⟩ := Int.eq_ofNat_of_zero_le (show (0 : Int) ≤ b by omega)
  have hbn1 : 1 ≤ bn := by exact_mod_cast hb1
  have hbnB : bn ≤ B := by exact_mod_cast hbB
  have hsB : size * B < 2 ^ 53 := by
    have h1 : 512 * size * B = 512 * (size * B) := by ring
    omega
  have hB53 : B < 2 ^ 53 := by
    have h2 : B ≤ size * B := Nat.le_mul_of_pos_left B hsize
    omega
  have hs53 : size < 2 ^ 53 := by
    have h2 : size ≤ size * B := Nat.le_mul_of_pos_right size (by omega)
    omega
  have hu : (F64.ofInt (bn : Int)).units = (bn : Int) * (F64.one : Int) :=
    F64.ofInt_units _ (by rw [Int.natAbs_ofNat]; omega)
  have hk : ∀ k : Nat, k ≤ size →
      F64.Rep ((k : Int) * ((bn : Int) * (F64.one : Int))).natAbs := by
    intro k hk
    have hcast : (k : Int) * ((bn : Int) * (F64.one : Int))
        = ((k * bn : Nat) : Int) * (F64.one : Int) := by
      rw [Nat.cast_mul]
      ring
    rw [hcast]
    apply F64.rep_int_mul_one
    rw [Int.natAbs_ofNat]
    have : k * bn ≤ size * B := Nat.mul_le_mul hk hbnB
    omega
  have hY : F64.Rep ((bn : Int) * (F64.one : Int)).natAbs := by
    have := hk 1 hsize
    simpa using this
  have hY2 : F64.Rep (2 * ((bn : Int) * (F64.one : Int))).natAbs := by
    have hcast : 2 * ((bn : Int) * (F64.one : Int)) = (2 * (bn : Int)) * (F64.one : Int) := by
      ring
    rw [hcast]
    apply F64.rep_int_mul_one
    have h1 : 512 * size * B = 512 * (size * B) := by ring
    have h2 : B ≤ size * B := Nat.le_mul_of_pos_left B hsize
    omega
  obtain ⟨hl, hall⟩ := fillRollingWindow_samples [F64.ofInt (bn : Int)] size
    (fun s => s.units = (bn : Int) * (F64.one : Int)) (by simp)
    (by simpa using hu)
    (fun c hc => le_antisymm (avg_self_le c _ hY hY2 (le_of_eq hc))
      (le_avg_self c _ hY hY2 (le_of_eq hc.symm)))
  apply toInt_of_units
  unfold getWindowAvg
  apply le_antisymm
  · apply Avg_units_le _ _ (by omega) (by omega) (fun s hs => le_of_eq (hall s hs))
    intro k hk'
    exact hk k (by omega)
  · apply le_Avg_units _ _ (by omega) (by omega) (fun s hs => le_of_eq (hall s hs).symm)
    intro k hk'
    exact hk k (by omega)

/-! ### The attach loop below the highest recorded key -/

/-- Up to the highest recorded key `K` the loop carries the index and the average of a
recorded key below `K`, or its initial zeros. -/
theorem attach_last_invariant (cd : IntMap (List F64)) (size : Nat) (init : AttachState)
    (rpm : Int → Int) (K B : Nat)
    (hidx : init.lastValueIdx = 0) (havg : init.lastValueAvg = F64.zero)
    (hrec : ∀ (k : Int) (v : List F64), cd.get k = some v →
      v = [F64.ofInt (rpm k)] ∧ -(B : Int) ≤ rpm k ∧ rpm k ≤ B)
    (hmax : ∀ k : Int, k ≠ (K : Int) → (cd.get k).isSome → rpm k < rpm K)
    (hpos : 1 ≤ rpm K) (hB : 512 * B < 2 ^ 53) :
    ∀ i : Nat, i ≤ K → ∃ (l : Nat) (a : Int),
      ((List.range i).foldl (attachStep cd size) init).lastValueIdx = (l : Int) ∧ l ≤ i ∧
      ((List.range i).foldl (attachStep cd size) init).lastValueAvg = F64.ofInt a ∧
      -(B : Int) ≤ a ∧ a < rpm K := by
  intro i
  induction i with
  | zero =>
    intro _
    refine ⟨0, 0, ?_, le_refl _, ?_, by omega, by omega⟩
    · simpa using hidx
    · rw [F64.ofInt_zero]
      simpa [F64.zero] using havg
  | succ i ih =>
    intro hi
    obtain ⟨l, a, h1, h2, h3, h4, h5⟩ := ih (by omega)
    rw [List.range_succ, List.foldl_append, List.foldl_cons, List.foldl_nil]
    generalize (List.range i).foldl (attachStep cd size) init = st at *
    have hstep1 : (attachStep cd size st i).lastValueIdx
        = (pointValuesAt cd st i).1.lastValueIdx := rfl
    have hstep2 : (attachStep cd size st i).lastValueAvg
        = (pointValuesAt cd st i).1.lastValueAvg := rfl
    rw [hstep1, hstep2]
    cases hget : cd.get (i : Int) with
    | none =>
      obtain ⟨e1, e2, _⟩ := pointValuesAt_unrecorded cd st i hget
      rw [e1, e2]
      exact ⟨l, a, h1, by omega, h3, h4, h5⟩
    | some v =>
      obtain ⟨hv, hlo, hhi⟩ := hrec _ v hget
      obtain ⟨e1, e2, _⟩ := pointValuesAt_recorded cd st i v hget (by rw [hv]; simp)
      rw [e1, e2, hv, Avg_singleton _ (by omega)]
      refine ⟨i, rpm i, rfl, by omega, rfl, hlo, ?_⟩
      apply hmax
      · omega
      · rw [hget]
        rfl

/-- The samples of every round other than `K`: at most one, at or below
`rpm K - 1/256`. -/
theorem attach_samples_other (cd : IntMap (List F64)) (size : Nat) (init : AttachState)
    (rpm : Int → Int) (K B h : Nat)
    (hidx : init.lastValueIdx = 0) (havg : init.lastValueAvg = F64.zero)
    (hrec : ∀ (k : Int) (v : List F64), cd.get k = some v →
      v = [F64.ofInt (rpm k)] ∧ -(B : Int) ≤ rpm k ∧ rpm k ≤ B)
    (hmax : ∀ k : Int, k ≠ (K : Int) → (cd.get k).isSome → rpm k < rpm K)
    (hpos : 1 ≤ rpm K) (hB : 512 * B < 2 ^ 53) (hK : K ≤ 255)
    (hKrec : (cd.get (K : Int)).isSome)
    (hhigh : ∀ j : Nat, K < j → cd.get (j : Int) = none)
    (hone : F64.one = 256 * h) (hrep : ∀ m : Nat, m < 2 ^ 53 → F64.Rep (m * h))
    (i : Nat) (hne : i ≠ K) :
    (pointValuesAt cd ((List.range i).foldl (attachStep cd size) init) i).2.length ≤ 1 ∧
      ((pointValuesAt cd ((List.range i).foldl (attachStep cd size) init) i).2.getD 0
        F64.zero).units ≤ (256 * rpm K - 1) * (h : Int) := by
  have hO : ((F64.one : Nat) : Int) = 256 * (h : Int) := by
    rw [hone]
    push_cast
    ring
  have hH : (0 : Int) ≤ (h : Int) := Int.ofNat_nonneg h
  have hY0 : (0 : Int) ≤ (256 * rpm K - 1) * (h : Int) := mul_nonneg (by omega) hH
  obtain ⟨vK, hvK⟩ := Option.isSome_iff_exists.1 hKrec
  obtain ⟨hvK1, hKlo, hKhi⟩ := hrec _ vK hvK
  rcases Nat.lt_or_gt_of_ne hne with hlt | hgt
  · obtain ⟨l, a, h1, h2, h3, h4, h5⟩ := attach_last_invariant cd size init rpm K B hidx havg
      hrec hmax hpos hB i (by omega)
    generalize (List.range i).foldl (attachStep cd size) init = st at *
    cases hget : cd.get (i : Int) with
    | none =>
      obtain ⟨_, _, e3⟩ := pointValuesAt_unrecorded cd st i hget
      have hnext := findNextValue_highest cd K i vK st.nextValueAvg (by omega) hK hvK hhigh
      rw [hnext] at e3
      have hKi : ¬ ((K : Int) = (i : Int)) := by omega
      simp only [hKi, if_false] at e3
      rw [e3, h1, h3, hvK1, Avg_singleton _ (by omega)]
      refine ⟨by simp, ?_⟩
      simp only [List.getD_cons_zero]
      exact interpolation_units_le l i K a (rpm K) B h h2 hlt hK h5 h4 hKhi hB hone hrep
    | some v =>
      obtain ⟨hv, hlo, hhi⟩ := hrec _ v hget
      obtain ⟨_, _, e3⟩ := pointValuesAt_recorded cd st i v hget (by rw [hv]; simp)
      rw [e3, hv]
      refine ⟨by simp, ?_⟩
      simp only [List.getD_cons_zero]
      rw [F64.ofInt_units _ (by omega), hO]
      have hlt' : rpm i < rpm K := by
        apply hmax
        · omega
        · rw [hget]
          rfl
      have : (256 * rpm (i : Int)) * (h : Int) ≤ (256 * rpm K - 1) * (h : Int) :=
        mul_le_mul_of_nonneg_right (by omega) hH
      calc rpm (i : Int) * (256 * (h : Int)) = (256 * rpm (i : Int)) * (h : Int) := by ring
        _ ≤ (256 * rpm K - 1) * (h : Int) := this
  · have hget := hhigh i hgt
    obtain ⟨_, _, e3⟩ := pointValuesAt_unrecorded cd
      ((List.range i).foldl (attachStep cd size) init) i hget
    rw [findNextValue_above cd K i _ hgt hhigh] at e3
    simp only [if_true] at e3
    rw [e3]
    refine ⟨by simp, ?_⟩
    simpa [F64.zero] using hY0

/-- The samples of round `K`: the recorded sample. -/
theorem attach_samples_highest (cd : IntMap (List F64)) (size : Nat) (init : AttachState)
    (rpm : Int → Int) (K B : Nat)
    (hrec : ∀ (k : Int) (v : List F64), cd.get k = some v →
      v = [F64.ofInt (rpm k)] ∧ -(B : Int) ≤ rpm k ∧ rpm k ≤ B)
    (hKrec : (cd.get (K : Int)).isSome) :
    (pointValuesAt cd ((List.range K).foldl (attachStep cd size) init) K).2
      = [F64.ofInt (rpm K)] := by
  obtain ⟨vK, hvK⟩ := Option.isSome_iff_exists.1 hKrec
  obtain ⟨hvK1, _, _⟩ := hrec _ vK hvK
  obtain ⟨_, _, e3⟩ := pointValuesAt_recorded cd
    ((List.range K).foldl (attachStep cd size) init) K vK hvK (by rw [hvK1]; simp)
  rw [e3, hvK1]

/-! ### The highest recorded key as `max_pwm` -/

/-- A key whose integer RPM is at least 1, is reached by no later key and is above that of
every earlier key is the `maxPwm` of `ComputePwmBoundaries`. -/
theorem max_pwm_of_first_max (fan : Fan) (m : IntMap RollingWindow)
    (hm : fan.FanCurveData = m) (K b : Int) (hK : K ∈ m.keys)
    (hb : 1 ≤ b) (hKavg : avgRpmAt m K = b) (hall : ∀ k ∈ m.keys, avgRpmAt m k ≤ b)
    (hbelow : ∀ k ∈ m.keys, k < K → avgRpmAt m k < b) :
    (ComputePwmBoundaries fan).2 = K := by
  subst hm
  rw [ComputePwmBoundaries_eq fan (keys_ne_nil_of_mem _ K hK)]
  have hmax := foldl_boundaryStep_max fan.FanCurveData _
    (sorted_keys_pairwise fan.FanCurveData) 255 255 0
  simp only
  generalize ((fan.FanCurveData.keys.insertionSort (· ≤ ·)).foldl
    (boundaryStep fan.FanCurveData) (255, 255, 0)) = res at *
  rcases hmax with h | h
  · obtain ⟨_, _, h3⟩ := h
    have := h3 K ((mem_sorted_keys _ _).2 hK)
    omega
  · obtain ⟨_, hm, ha, hle, hfirst⟩ := h
    have hKle := hle K ((mem_sorted_keys _ _).2 hK)
    have hmp := hall _ ((mem_sorted_keys _ _).1 hm)
    have hR : res.2.2 = b := by omega
    have h1 : res.2.1 ≤ K := hfirst K ((mem_sorted_keys _ _).2 hK) (by omega)
    rcases lt_or_eq_of_le h1 with hlt | heq
    · have := hbelow _ ((mem_sorted_keys _ _).1 hm) hlt
      omega
    · exact heq

/-- The map of the fan after `AttachFanCurveData` on a non-empty data set. -/
theorem AttachFanCurveData_data (cd : IntMap (List F64)) (size : Nat) (fan : Fan)
    (hne : cd ≠ []) :
    (AttachFanCurveData (some cd) size fan).1.FanCurveData
      = ((List.range 256).foldl (attachStep cd size)
          ⟨0, F64.zero, 0, F64.zero, fan.FanCurveData⟩).data := by
  rw [AttachFanCurveData_eq cd size fan hne]

/-- The `max_pwm` that `AttachFanCurveData` stores is the one `ComputePwmBoundaries` gives
on the attached fan. -/
theorem AttachFanCurveData_maxPwm (cd : IntMap (List F64)) (size : Nat) (fan : Fan)
    (hne : cd ≠ []) :
    (AttachFanCurveData (some cd) size fan).2 = none ∧
      (AttachFanCurveData (some cd) size fan).1.MaxPwm
        = (ComputePwmBoundaries (AttachFanCurveData (some cd) size fan).1).2 := by
  rw [AttachFanCurveData_eq cd size fan hne]
  exact ⟨rfl, rfl⟩

/-- The integer RPM under key `i` after the attach loop, from the samples of round `i`. -/
theorem avgRpmAt_attached (cd : IntMap (List F64)) (size : Nat) (init : AttachState) (i : Nat)
    (hi : i < 256) :
    avgRpmAt ((List.range 256).foldl (attachStep cd size) init).data (i : Int)
      = F64.toInt (getWindowAvg (fillRollingWindow size
          (pointValuesAt cd ((List.range i).foldl (attachStep cd size) init) i).2)) := by
  unfold avgRpmAt windowAvgAt
  rw [attached_get cd size init 256 i hi]
  rfl

/-- The keys of the map after the attach loop on an empty map are below 256. -/
theorem keys_attached (cd : IntMap (List F64)) (size : Nat) (init : AttachState)
    (hdata : init.data = []) :
    ∀ k ∈ ((List.range 256).foldl (attachStep cd size) init).data.keys,
      ∃ i : Nat, i < 256 ∧ k = (i : Int) := by
  intro k hk
  rcases keys_foldl_attachStep cd size _ _ k hk with hin | ⟨i, hi, hki⟩
  · rw [hdata] at hin
    simp [IntMap.keys] at hin
  · exact ⟨i, List.mem_range.1 hi, hki⟩

/-- Above the highest recorded key a round has no samples. -/
theorem attach_samples_above (cd : IntMap (List F64)) (st : AttachState) (K i : Nat)
    (hhigh : ∀ j : Nat, K < j → cd.get (j : Int) = none) (hi : K < i) :
    (pointValuesAt cd st i).2 = [] := by
  obtain ⟨_, _, e3⟩ := pointValuesAt_unrecorded cd st i (hhigh i hi)
  rw [findNextValue_above cd K i _ hi hhigh] at e3
  simp only [if_true] at e3
  exact e3

/-- A key outside the key set is not recorded. -/
theorem get_none_of_not_mem_keys {α : Type} (k : Int) :
    ∀ m : IntMap α, k ∉ m.keys → m.get k = none := by
  intro m h
  cases hg : m.get k with
  | none => rfl
  | some v => exact absurd (mem_keys_of_get k v m hg) h

/-- A recorded key carries one of the entries of the map. -/
theorem mem_of_get {α : Type} (k : Int) (v : α) :
    ∀ m : IntMap α, m.get k = some v → (k, v) ∈ m := by
  intro m
  induction m with
  | nil =>
    intro h
    simp [IntMap.get] at h
  | cons e t ih =>
    obtain ⟨ek, ev⟩ := e
    intro h
    unfold IntMap.get at h
    rw [List.lookup_cons] at h
    by_cases hek : k = ek
    · subst hek
      simp only [beq_self_eq_true, Option.some.injEq] at h
      rw [h]
      exact List.mem_cons_self _ _
    · have h2 : (k == ek) = false := by simpa using hek
      rw [h2] at h
      exact List.mem_cons_of_mem _ (ih h)

/-- C15 (counterexample): the data set `{0 → 2^60 - 128, 2 → 2^60}` holds one integer RPM
sample per key, and its highest key 2 carries the strictly largest RPM; attached to the
empty fan with a window of one sample, `ComputePwmBoundaries` gives `max_pwm = 1`: the
value interpolated for key 1 rounds up to `2^60`. -/
theorem C15_counterexample :
    hugeRpmData.keys = [0, 2] ∧
      (F64.ofInt (2 ^ 60 - 128)).units = (2 ^ 60 - 128) * (F64.one : Int) ∧
      (F64.ofInt (2 ^ 60)).units = 2 ^ 60 * (F64.one : Int) ∧
      avgRpmAt (AttachFanCurveData (some hugeRpmData) 1 (emptyFan false)).1.FanCurveData 1
        = 2 ^ 60 ∧
      (ComputePwmBoundaries (AttachFanCurveData (some hugeRpmData) 1 (emptyFan false)).1).2
        = 1 := by
  have hne : hugeRpmData ≠ [] := by simp [hugeRpmData]
  have hhigh : ∀ j : Nat, 2 < j → hugeRpmData.get (j : Int) = none := by
    intro j hj
    apply get_none_of_not_mem_keys
    simp only [hugeRpmData, IntMap.keys, List.map_cons, List.map_nil, List.mem_cons,
      List.mem_singleton, List.not_mem_nil, or_false]
    omega
  have hrounds :
      F64.toInt (getWindowAvg (fillRollingWindow 1
          (pointValuesAt hugeRpmData ((List.range 0).foldl (attachStep hugeRpmData 1)
            ⟨0, F64.zero, 0, F64.zero, (emptyFan false).FanCurveData⟩) 0).2)) = 2 ^ 60 - 128 ∧
        F64.toInt (getWindowAvg (fillRollingWindow 1
          (pointValuesAt hugeRpmData ((List.range 1).foldl (attachStep hugeRpmData 1)
            ⟨0, F64.zero, 0, F64.zero, (emptyFan false).FanCurveData⟩) 1).2)) = 2 ^ 60 ∧
        F64.toInt (getWindowAvg (fillRollingWindow 1
          (pointValuesAt hugeRpmData ((List.range 2).foldl (attachStep hugeRpmData 1)
            ⟨0, F64.zero, 0, F64.zero, (emptyFan false).FanCurveData⟩) 2).2)) = 2 ^ 60 ∧
        F64.toInt (getWindowAvg (fillRollingWindow 1 [])) = 0 := by
    decide!
  obtain ⟨e0, e1, e2, ez⟩ := hrounds
  have hdata := AttachFanCurveData_data hugeRpmData 1 (emptyFan false) hne
  generalize hinit : (⟨0, F64.zero, 0, F64.zero, (emptyFan false).FanCurveData⟩ : AttachState)
    = init at e0 e1 e2 hdata
  have hempty : init.data = [] := by rw [← hinit]; rfl
  have havg : ∀ i : Nat, i < 256 →
      avgRpmAt ((List.range 256).foldl (attachStep hugeRpmData 1) init).data (i : Int)
          ≤ 2 ^ 60 ∧
        (i = 0 → avgRpmAt ((List.range 256).foldl (attachStep hugeRpmData 1) init).data
          (i : Int) < 2 ^ 60) ∧
        (i = 1 → avgRpmAt ((List.range 256).foldl (attachStep hugeRpmData 1) init).data
          (i : Int) = 2 ^ 60) := by
    intro i hi
    rw [avgRpmAt_attached hugeRpmData 1 init i hi]
    by_cases h0 : i = 0
    · subst h0
      rw [e0]
      exact ⟨by norm_num, fun _ => by norm_num, fun h => absurd h (by norm_num)⟩
    by_cases h1 : i = 1
    · subst h1
      rw [e1]
      exact ⟨le_refl _, fun h => absurd h (by norm_num), fun _ => rfl⟩
    by_cases h2 : i = 2
    · subst h2
      rw [e2]
      exact ⟨le_refl _, fun h => absurd h (by norm_num), fun h => absurd h (by norm_num)⟩
    · rw [attach_samples_above hugeRpmData _ 2 i hhigh (by omega), ez]
      exact ⟨by norm_num, fun h => absurd h h0, fun h => absurd h h1⟩
  have h1avg : avgRpmAt ((List.range 256).foldl (attachStep hugeRpmData 1) init).data 1
      = 2 ^ 60 := (havg 1 (by norm_num)).2.2 rfl
  have hmax : (ComputePwmBoundaries
      (AttachFanCurveData (some hugeRpmData) 1 (emptyFan false)).1).2 = 1 := by
    apply max_pwm_of_first_max _ _ hdata 1 (2 ^ 60) _ (by norm_num) h1avg
    · intro k hk
      obtain ⟨i, hi, rfl⟩ := keys_attached hugeRpmData 1 init hempty k hk
      exact (havg i hi).1
    · intro k hk hlt
      obtain ⟨i, hi, rfl⟩ := keys_attached hugeRpmData 1 init hempty k hk
      exact (havg i hi).2.1 (by omega)
    · exact mem_keys_of_get _ _ _ (attached_get hugeRpmData 1 init 256 1 (by norm_num))
  have hunits : (F64.ofInt (2 ^ 60 - 128)).units = (2 ^ 60 - 128) * (F64.one : Int) ∧
      (F64.ofInt (2 ^ 60)).units = 2 ^ 60 * (F64.one : Int) := by
    decide!
  refine ⟨rfl, hunits.1, hunits.2, ?_, hmax⟩
  rw [hdata]
  exact h1avg

/-- C15 (amended): for a data set with one integer RPM sample per recorded key, each of
magnitude at most `B`, keys in `[0, 255]`, whose highest recorded key `K` has an RPM of at
least 1 that is strictly greater than the RPM of every other recorded key, attaching to a
fan with an empty map and a window of `size ≥ 1` samples with `512 · size · B < 2^53`
succeeds and sets `max_pwm = K`, and `ComputePwmBoundaries` on the attached fan gives
`max_pwm = K`. -/
theorem C15_max_pwm_is_highest_key (cd : IntMap (List F64)) (rpm : Int → Int) (K : Int)
    (size B : Nat) (fan : Fan) (hfresh : fan.FanCurveData = []) (hsize : 1 ≤ size)
    (hB : 512 * size * B < 2 ^ 53) (hkeys : ∀ k ∈ cd.keys, 0 ≤ k ∧ k ≤ 255)
    (hrec : ∀ (k : Int) (v : List F64), cd.get k = some v →
      v = [F64.ofInt (rpm k)] ∧ -(B : Int) ≤ rpm k ∧ rpm k ≤ B)
    (hKrec : (cd.get K).isSome) (hhigh : ∀ k : Int, K < k → cd.get k = none)
    (hpos : 1 ≤ rpm K)
    (hmax : ∀ k : Int, k ≠ K → (cd.get k).isSome → rpm k < rpm K) :
    (AttachFanCurveData (some cd) size fan).2 = none ∧
      (AttachFanCurveData (some cd) size fan).1.MaxPwm = K ∧
      (ComputePwmBoundaries (AttachFanCurveData (some cd) size fan).1).2 = K := by
  obtain ⟨vK, hvK⟩ := Option.isSome_iff_exists.1 hKrec
  obtain ⟨hK0, hK255⟩ := hkeys K (mem_keys_of_get K vK cd hvK)
  obtain ⟨_, _, hKB⟩ := hrec K vK hvK
  have hne : cd ≠ [] := by
    intro h
    rw [h] at hvK
    simp [IntMap.get] at hvK
  obtain ⟨Kn, rfl⟩ := Int.eq_ofNat_of_zero_le hK0
  have hKn : Kn ≤ 255 := by omega
  obtain ⟨h, hone, hh, hrep⟩ := F64.one_eq_256_mul
  have hB1 : 1 ≤ B := by omega
  have hB512 : 512 * B < 2 ^ 53 := by
    have h1 : 512 * size * B = 512 * (size * B) := by ring
    have h2 : B ≤ size * B := Nat.le_mul_of_pos_left B hsize
    omega
  have hhighN : ∀ j : Nat, Kn < j → cd.get (j : Int) = none :=
    fun j hj => hhigh j (by omega)
  obtain ⟨hnone, hstored⟩ := AttachFanCurveData_maxPwm cd size fan hne
  have hdata := AttachFanCurveData_data cd size fan hne
  generalize hinit : (⟨0, F64.zero, 0, F64.zero, fan.FanCurveData⟩ : AttachState) = init
    at hdata
  have hidx : init.lastValueIdx = 0 := by rw [← hinit]
  have havg : init.lastValueAvg = F64.zero := by rw [← hinit]
  have hempty : init.data = [] := by rw [← hinit]; exact hfresh
  have hother : ∀ i : Nat, i < 256 → i ≠ Kn →
      avgRpmAt ((List.range 256).foldl (attachStep cd size) init).data (i : Int)
        ≤ rpm Kn - 1 := by
    intro i hi256 hiK
    rw [avgRpmAt_attached cd size init i hi256]
    obtain ⟨hlen, hle⟩ := attach_samples_other cd size init rpm Kn B h hidx havg hrec hmax
      hpos hB512 hKn hKrec hhighN hone hrep i hiK
    exact fill_avgRpm_le size _ (rpm Kn) B h hsize hB hpos hKB hone hrep hlen hle
  have hKavg : avgRpmAt ((List.range 256).foldl (attachStep cd size) init).data (Kn : Int)
      = rpm Kn := by
    rw [avgRpmAt_attached cd size init Kn (by omega),
      attach_samples_highest cd size init rpm Kn B hrec hKrec]
    exact fill_avgRpm_eq size _ B hsize hB hpos hKB
  have hmain : (ComputePwmBoundaries (AttachFanCurveData (some cd) size fan).1).2
      = (Kn : Int) := by
    apply max_pwm_of_first_max _ _ hdata (Kn : Int) (rpm Kn) _ hpos hKavg
    · intro k hk
      obtain ⟨i, hi, rfl⟩ := keys_attached cd size init hempty k hk
      by_cases hiK : i = Kn
      · subst hiK
        exact le_of_eq hKavg
      · have := hother i hi hiK
        omega
    · intro k hk hlt
      obtain ⟨i, hi, rfl⟩ := keys_attached cd size init hempty k hk
      have := hother i hi (by omega)
      omega
    · exact mem_keys_of_get _ _ _ (attached_get cd size init 256 Kn (by omega))
  exact ⟨hnone, hstored.trans hmain, hmain⟩

/-- Witness for C15: the `CappedFan` data set attached to the empty fan with a window of
10 samples gives `max_pwm = 200`. -/
theorem C15_max_pwm_is_highest_key_witness :
    (AttachFanCurveData (some CappedFan) 10 (emptyFan false)).2 = none ∧
      (AttachFanCurveData (some CappedFan) 10 (emptyFan false)).1.MaxPwm = 200 ∧
      (ComputePwmBoundaries (AttachFanCurveData (some CappedFan) 10 (emptyFan false)).1).2
        = 200 :=
  C15_max_pwm_is_highest_key CappedFan cappedRpm 200 10 200 (emptyFan false) rfl (by decide)
    (by norm_num) (by decide)
    (by
      intro k v hv
      have hm := mem_of_get k v CappedFan hv
      simp only [CappedFan, List.mem_cons, Prod.mk.injEq, List.mem_singleton,
        List.not_mem_nil, or_false] at hm
      rcases hm with h | h | h | h | h | h | h | h <;>
        (obtain ⟨hk, hkv⟩ := h
         subst hk hkv
         exact ⟨rfl, by decide, by decide⟩))
    (by decide)
    (by
      intro k hk
      apply get_none_of_not_mem_keys
      simp only [CappedFan, IntMap.keys, List.map_cons, List.map_nil, List.mem_cons,
        List.mem_singleton, List.not_mem_nil, or_false]
      omega)
    (by decide)
    (by
      intro k hk _
      have h200 : cappedRpm 200 = 200 := by decide
      rw [h200]
      unfold cappedRpm
      rw [if_neg hk]
      split_ifs <;> decide)

end Fan2go
